import Mathlib

/-!
Verification of the reference parsing and resolution engine of `orthofetch.py`.

The development shallowly embeds the Python source:
* a small backtracking regular-expression engine (`reMatch`) faithful to the
  semantics of Python `re.match` on the three concrete patterns the source
  uses (greedy quantifiers with backtracking, leftmost anchoring, capture
  groups);
* the string normalisation helpers (`str.replace`, `re.sub`, `.strip()`,
  dot-to-colon conversion) as executable functions on `List Char`;
* `parse_reading_reference`, the comma-continuation logic of
  `display_reading`, the reading splitter, and the verse-walking core of
  `get_bible_text`.

All functions are computable so concrete claims can be settled by `decide`.
-/

namespace Orthofetch

/-! ### Character classes (Python `re` classes, ASCII fragment) -/

/-- Python `\s` whitespace characters. -/
def isPySpace (c : Char) : Bool :=
  c = ' ' || c = '\t' || c = '\n' || c = '\r' || c = '\x0b' || c = '\x0c'

/-- The character class `[0-9A-Za-z\s]` used for the book-name group. -/
def isWordSpace (c : Char) : Bool :=
  c.isDigit || c.isAlpha || isPySpace c

/-- The character class `[-:]`. -/
def isDashColon (c : Char) : Bool :=
  c = '-' || c = ':'

/-! ### Python string helpers -/

/-- `s.strip()` from the left. -/
def lstripPy (s : List Char) : List Char := s.dropWhile isPySpace

/-- Python `str.strip()`: drop leading and trailing whitespace. -/
def stripPy (s : List Char) : List Char :=
  ((s.dropWhile isPySpace).reverse.dropWhile isPySpace).reverse

/-- One step bound for `replacePy`. -/
def replacePyAux (pat rep : List Char) : Nat → List Char → List Char
  | _, [] => []
  | 0, s => s
  | fuel+1, c :: rest =>
    if pat.isPrefixOf (c :: rest) && !pat.isEmpty then
      rep ++ replacePyAux pat rep fuel ((c :: rest).drop pat.length)
    else
      c :: replacePyAux pat rep fuel rest

/-- Python `str.replace(pat, rep)`: replace all non-overlapping occurrences,
left to right, without rescanning the replacement text. -/
def replacePy (pat rep s : List Char) : List Char :=
  replacePyAux pat rep s.length s

/-- Whether `pat` occurs as a contiguous substring of `s`. -/
def hasSubstr (pat : List Char) : List Char → Bool
  | [] => pat.isEmpty
  | c :: rest => pat.isPrefixOf (c :: rest) || hasSubstr pat rest

/-- Python `sep in s` style membership for a single character. -/
def hasChar (c : Char) (s : List Char) : Bool := s.contains c

/-- Auxiliary for `splitPy`; `acc` is the current piece, reversed. -/
def splitPyAux (sep : List Char) : Nat → List Char → List Char → List (List Char)
  | 0, acc, s => [acc.reverse ++ s]
  | fuel+1, acc, s =>
    if sep.isPrefixOf s && !sep.isEmpty then
      acc.reverse :: splitPyAux sep fuel [] (s.drop sep.length)
    else
      match s with
      | [] => [acc.reverse]
      | c :: rest => splitPyAux sep fuel (c :: acc) rest

/-- Python `s.split(sep)` for a non-empty separator: empty pieces are kept. -/
def splitPy (s sep : List Char) : List (List Char) :=
  splitPyAux sep (s.length + 1) [] s

/-- Python `str.isdigit()` (ASCII fragment): non-empty and all digits. -/
def isDigitStr (s : List Char) : Bool :=
  !s.isEmpty && s.all Char.isDigit

/-- Value of a big-endian digit string, as computed by Python `int` on an
all-digit string. -/
def digitsVal (cs : List Char) : Nat :=
  cs.foldl (fun a c => 10 * a + (c.toNat - 48)) 0

/-- Python `int(s)` restricted to the shapes reachable in the source
(whitespace-stripped, optional `+`, then decimal digits); other inputs
raise `ValueError`, modelled as `none`. The source never reaches `int`
with a `-` sign because every branch checks for `-` first. -/
def intPy (s : List Char) : Option Nat :=
  let t := stripPy s
  let t := match t with
    | '+' :: rest => rest
    | _ => t
  if isDigitStr t then some (digitsVal t) else none

/-- Fuel-based decimal rendering; the fuel `n + 1` always suffices. -/
def natCharsAux (fuel : Nat) (n : Nat) : List Char :=
  match fuel with
  | 0 => []
  | fuel + 1 =>
    if n < 10 then [Char.ofNat (48 + n)]
    else natCharsAux fuel (n / 10) ++ [Char.ofNat (48 + n % 10)]

/-- Decimal rendering of a natural number, as Python `str(n)`. -/
def natChars (n : Nat) : List Char := natCharsAux (n + 1) n

/-! ### A small backtracking regex engine

Only the combinators needed by the source's patterns are provided.  `plus`
and `star` are greedy character-class quantifiers; `opt` is a greedy `?`;
`grp` records a capture.  The continuation-passing matcher `reMatch` tries
alternatives in exactly the order Python's backtracking engine does
(longest repetition first), so it returns the same match and the same
captures as `re.match`. -/

inductive RE where
  | chr (p : Char → Bool)
  | plus (p : Char → Bool)
  | star (p : Char → Bool)
  | seq (a b : RE)
  | opt (a : RE)
  | grp (i : Nat) (a : RE)
  | lit (cs : List Char)

/-- Length of the maximal prefix whose characters all satisfy `p`. -/
def maxRun (p : Char → Bool) : List Char → Nat
  | [] => 0
  | c :: rest => if p c then maxRun p rest + 1 else 0

/-- Try `f n`, `f (n-1)`, …, `f 1`, returning the first success. -/
def tryFrom (f : Nat → Option α) : Nat → Option α
  | 0 => none
  | n+1 => (f (n+1)).orElse fun _ => tryFrom f n

/-- Try `f n`, `f (n-1)`, …, `f 0`, returning the first success. -/
def tryFrom0 (f : Nat → Option α) : Nat → Option α
  | 0 => f 0
  | n+1 => (f (n+1)).orElse fun _ => tryFrom0 f n

/-- Capture environment: most recent capture for a group index first. -/
abbrev Caps := List (Nat × List Char)

/-- The backtracking matcher in continuation-passing style.  `k` receives
the unconsumed rest of the input and the captures of the path taken. -/
def reMatch : RE → List Char → Caps → (List Char → Caps → Option σ) → Option σ
  | .chr p, s, caps, k =>
    match s with
    | [] => none
    | c :: rest => if p c then k rest caps else none
  | .plus p, s, caps, k => tryFrom (fun i => k (s.drop i) caps) (maxRun p s)
  | .star p, s, caps, k => tryFrom0 (fun i => k (s.drop i) caps) (maxRun p s)
  | .seq a b, s, caps, k => reMatch a s caps fun s2 c2 => reMatch b s2 c2 k
  | .opt a, s, caps, k => (reMatch a s caps k).orElse fun _ => k s caps
  | .grp i a, s, caps, k =>
    reMatch a s caps fun s2 c2 => k s2 ((i, s.take (s.length - s2.length)) :: c2)
  | .lit cs, s, caps, k =>
    if cs.isPrefixOf s then k (s.drop cs.length) caps else none

/-- The top-level continuation of a match: succeed, returning the
captures; the unconsumed rest of the input is ignored (`re.match` allows
trailing text). -/
def kfin : List Char → Caps → Option Caps := fun _ caps => some caps

/-- `re.match(pattern, s)`: anchored at the start, trailing text allowed. -/
def runRE (r : RE) (s : List Char) : Option Caps :=
  reMatch r s [] kfin

/-- Most recent capture of group `i`. -/
def getGrp (caps : Caps) (i : Nat) : Option (List Char) :=
  (caps.find? (fun pr => pr.1 == i)).map (fun pr => pr.2)

/-- Declarative characterisation of the strings a pattern can consume
(captures ignored); used to reason about matches that must fail. -/
inductive MSpec : RE → List Char → Prop where
  | chr {p : Char → Bool} {c : Char} : p c = true → MSpec (.chr p) [c]
  | plus {p : Char → Bool} {xs : List Char} :
      xs ≠ [] → (∀ c ∈ xs, p c = true) → MSpec (.plus p) xs
  | star {p : Char → Bool} {xs : List Char} :
      (∀ c ∈ xs, p c = true) → MSpec (.star p) xs
  | seq {a b : RE} {x y : List Char} :
      MSpec a x → MSpec b y → MSpec (.seq a b) (x ++ y)
  | optSome {a : RE} {x : List Char} : MSpec a x → MSpec (.opt a) x
  | optNone {a : RE} : MSpec (.opt a) []
  | grp {i : Nat} {a : RE} {x : List Char} : MSpec a x → MSpec (.grp i a) x
  | lit {cs : List Char} : MSpec (.lit cs) cs

/-- A capturing `(\d+)` with group index `i`. -/
def digitsRE (i : Nat) : RE := .grp i (.plus Char.isDigit)

/-- `([0-9A-Za-z\s]+)\s+(\d+)[:](\d+)[-:](\d+)[:](\d+)` — the cross-chapter
pattern of `parse_reading_reference`. -/
def crossPat : RE :=
  .seq (.grp 1 (.plus isWordSpace))
    (.seq (.plus isPySpace)
      (.seq (digitsRE 2)
        (.seq (.chr (fun c => c = ':'))
          (.seq (digitsRE 3)
            (.seq (.chr isDashColon)
              (.seq (digitsRE 4)
                (.seq (.chr (fun c => c = ':')) (digitsRE 5))))))))

/-- `([0-9A-Za-z\s]+)\s+(\d+)[:](\d+)(?:[-:]?(\d+))?` — the single-chapter
pattern of `parse_reading_reference`. -/
def singlePat : RE :=
  .seq (.grp 1 (.plus isWordSpace))
    (.seq (.plus isPySpace)
      (.seq (digitsRE 2)
        (.seq (.chr (fun c => c = ':'))
          (.seq (digitsRE 3)
            (.opt (.seq (.opt (.chr isDashColon)) (digitsRE 4)))))))

/-- The optional `(?:[-:]?(\d+))?` tail of the single-chapter pattern. -/
def singleTail4 : RE := .opt (.seq (.opt (.chr isDashColon)) (digitsRE 4))

/-- The single-chapter pattern from the start-verse group onwards. -/
def singleTail3 : RE := .seq (digitsRE 3) singleTail4

/-- The single-chapter pattern from the chapter/verse colon onwards. -/
def singleTail2 : RE := .seq (.chr (fun c => c = ':')) singleTail3

/-- The single-chapter pattern from the chapter group onwards. -/
def singleTail1 : RE := .seq (digitsRE 2) singleTail2

/-- The single-chapter pattern from the book/chapter whitespace onwards. -/
def singleTail0 : RE := .seq (.plus isPySpace) singleTail1

/-- `(\d+)\[(\d+)\]\s+Kings` — the historical Kings numbering pattern. -/
def kingsPat : RE :=
  .seq (digitsRE 1)
    (.seq (.chr (fun c => c = '['))
      (.seq (digitsRE 2)
        (.seq (.chr (fun c => c = ']'))
          (.seq (.plus isPySpace) (.lit ['K', 'i', 'n', 'g', 's'])))))

/-- `^Composite \d+ -\s*` — the composite-reading prefix pattern. -/
def compositePat : RE :=
  .seq (.lit "Composite ".data)
    (.seq (.plus Char.isDigit)
      (.seq (.lit " -".data) (.star isPySpace)))

/-! ### `parse_reading_reference` -/

/-- The canonical 5-tuple `(book, start_chapter, start_verse, end_chapter,
end_verse)` produced by the reference parser. -/
structure Ref where
  book : List Char
  sc : Nat
  sv : Nat
  ec : Nat
  ev : Nat
deriving DecidableEq, Repr

/-- `re.sub(r'(\d+)\[(\d+)\]\s+Kings', r'\2 Kings', s)`: scan left to
right, replacing each non-overlapping leftmost match. -/
def subKingsAux : Nat → List Char → List Char
  | _, [] => []
  | 0, s => s
  | fuel+1, c :: rest =>
    match reMatch kingsPat (c :: rest) [] (fun r caps => some (r, caps)) with
    | some (r, caps) =>
      ((getGrp caps 2).getD []) ++ (' ' :: ['K', 'i', 'n', 'g', 's']) ++ subKingsAux fuel r
    | none => c :: subKingsAux fuel rest

/-- The Kings alternate-numbering rewrite applied by the parser. -/
def subKings (s : List Char) : List Char := subKingsAux s.length s

/-- `reference.replace("Wisdom", "Wisdom of Solomon")`. -/
def wisdomReplace (s : List Char) : List Char :=
  replacePy "Wisdom".data "Wisdom of Solomon".data s

/-- `reference.replace('.', ':')`. -/
def dotToColon (s : List Char) : List Char :=
  s.map (fun c => if c = '.' then ':' else c)

/-- Build the cross-chapter result from the captures (lines 102–109). -/
def extractCross (caps : Caps) : Option Ref :=
  match getGrp caps 1, getGrp caps 2, getGrp caps 3, getGrp caps 4, getGrp caps 5 with
  | some g1, some g2, some g3, some g4, some g5 =>
    some ⟨stripPy g1, digitsVal g2, digitsVal g3, digitsVal g4, digitsVal g5⟩
  | _, _, _, _, _ => none

/-- Build the single-chapter result from the captures (lines 115–122). -/
def extractSingle (caps : Caps) : Option Ref :=
  match getGrp caps 1, getGrp caps 2, getGrp caps 3 with
  | some g1, some g2, some g3 =>
    let ev := match getGrp caps 4 with
      | some g4 => digitsVal g4
      | none => digitsVal g3
    some ⟨stripPy g1, digitsVal g2, digitsVal g3, digitsVal g2, ev⟩
  | _, _, _ => none

/-- The grammar-matching stage of the parser: try the cross-chapter
pattern, then the single-chapter pattern, on the already normalised and
stripped citation string. -/
def matchStage (s : List Char) : Option Ref :=
  match runRE crossPat s with
  | some caps => extractCross caps
  | none =>
    match runRE singlePat s with
    | some caps => extractSingle caps
    | none => none

/-- `parse_reading_reference` (lines 81–124): Wisdom alias, Kings rewrite,
dot normalisation, strip, then grammar matching. -/
def parse_reading_reference (s : List Char) : Option Ref :=
  matchStage (stripPy (dotToColon (subKings (wisdomReplace s))))

/-! ### The reading splitter (`display_reading`, lines 308–334) -/

/-- The bullet separator `" • "`. -/
def bulletSep : List Char := " • ".data

/-- `[r.strip() for r in s.split(sep) if r.strip()]`. -/
def splitStripFilter (s sep : List Char) : List (List Char) :=
  ((splitPy s sep).map stripPy).filter (fun r => !r.isEmpty)

/-- `re.sub(r'^Composite \d+ -\s*', '', reading)`: the pattern is anchored,
so at most the leading occurrence is removed. -/
def stripCompositePrefix (s : List Char) : List Char :=
  match reMatch compositePat s [] (fun r _ => some r) with
  | some r => r
  | none => s

/-- Splitting one reading segment that begins with `"Composite"`. -/
def compositeParts (reading : List Char) : List (List Char) :=
  let cr := stripCompositePrefix reading
  if hasChar ';' cr then
    (((splitPy cr [';']).map stripPy).filter (fun p => !p.isEmpty)).foldl
      (fun a part => a ++ splitStripFilter part bulletSep) []
  else
    splitStripFilter cr bulletSep

/-- The citation splitter of `display_reading` (lines 308–334): top-level
bullet split, composite unwrapping, and the final non-empty/non-numeric
filter. -/
def cleanReadings (s : List Char) : List (List Char) :=
  let readings := splitStripFilter s bulletSep
  let clean := readings.foldl
    (fun acc reading =>
      if "Composite".data.isPrefixOf reading then acc ++ compositeParts reading
      else acc ++ [reading]) []
  clean.filter (fun r => !r.isEmpty && !isDigitStr r)

/-! ### Comma-continuation parsing (`display_reading`, lines 348–431) -/

/-- Process one comma-part given the references parsed so far.  Mirrors the
loop body of `display_reading`: a part containing `:` or `.` is either a
chapter-override (leading digit) resolved against the *first* parsed
reference's book, or a full citation handed to `parse_reading_reference`;
a part without `:`/`.` is a bare verse or verse range resolved against the
*first* parsed reference's book and chapter.  Error messages printed by
the source before its early `return` become `Except.error`. -/
def commaStep (acc : List Ref) (part : List Char) : Except (List Char) (List Ref) :=
  if hasChar ':' part || hasChar '.' part then
    if (part.head?.map Char.isDigit).getD false then
      match acc with
      | [] => .error ("Could not determine book for reference: ".data ++ part)
      | r0 :: _ =>
        if hasChar '.' part then
          match splitPy part ['.'] with
          | [cp, vp] =>
            match intPy cp with
            | none => .error ("Could not parse chapter.verse reference: ".data ++ part)
            | some ch =>
              if hasChar '-' vp then
                match splitPy vp ['-'] with
                | [a, b] =>
                  match intPy a, intPy b with
                  | some va, some vb => .ok (acc ++ [⟨r0.book, ch, va, ch, vb⟩])
                  | _, _ => .error ("Could not parse chapter.verse reference: ".data ++ part)
                | _ => .error ("Could not parse chapter.verse reference: ".data ++ part)
              else
                match intPy vp with
                | some v => .ok (acc ++ [⟨r0.book, ch, v, ch, v⟩])
                | none => .error ("Could not parse chapter.verse reference: ".data ++ part)
          | _ => .error ("Could not parse chapter.verse reference: ".data ++ part)
        else
          match splitPy part [':'] with
          | [cp, vp] =>
            match intPy cp with
            | none => .error ("Could not parse chapter.verse reference: ".data ++ part)
            | some ch =>
              if hasChar '-' vp then
                match splitPy vp ['-'] with
                | [a, b] =>
                  match intPy a, intPy b with
                  | some va, some vb => .ok (acc ++ [⟨r0.book, ch, va, ch, vb⟩])
                  | _, _ => .error ("Could not parse chapter.verse reference: ".data ++ part)
                | _ => .error ("Could not parse chapter.verse reference: ".data ++ part)
              else
                match intPy vp with
                | some v => .ok (acc ++ [⟨r0.book, ch, v, ch, v⟩])
                | none => .error ("Could not parse chapter.verse reference: ".data ++ part)
          | _ => .error ("Could not parse chapter.verse reference: ".data ++ part)
    else
      match parse_reading_reference part with
      | some r => .ok (acc ++ [r])
      | none => .error ("Could not parse reading reference: ".data ++ part)
  else
    match acc with
    | [] => .error ("Could not determine book for verse range: ".data ++ part)
    | r0 :: _ =>
      if hasChar '-' part then
        match splitPy part ['-'] with
        | [a, b] =>
          match intPy a, intPy b with
          | some va, some vb => .ok (acc ++ [⟨r0.book, r0.sc, va, r0.sc, vb⟩])
          | _, _ => .error ("Could not parse verse range: ".data ++ part)
        | _ => .error ("Could not parse verse range: ".data ++ part)
      else
        match intPy part with
        | some v => .ok (acc ++ [⟨r0.book, r0.sc, v, r0.sc, v⟩])
        | none => .error ("Could not parse verse: ".data ++ part)

/-- The comma-joined citation series of `display_reading` (lines 348–416):
split on commas, strip each part, process parts in order with early exit
on the first error. -/
def commaSeries (readingRef : List Char) : Except (List Char) (List Ref) :=
  ((splitPy readingRef [',']).map stripPy).foldlM commaStep []

/-! ### The verse store and `get_bible_text` (lines 165–284) -/

/-- One verse record of the JSON store. -/
structure PyVerse where
  verse : Nat
  text : List Char
deriving DecidableEq, Repr

/-- One chapter record of the JSON store. -/
structure PyChapter where
  chapter : Nat
  verses : List PyVerse
deriving DecidableEq, Repr

/-- `{ch.get("chapter"): ch for ch in data.get("chapters", [])}` followed by
`.get(n)`: a Python dict comprehension keeps the last record for a
duplicated key. -/
def lookupChapter (chs : List PyChapter) (n : Nat) : Option PyChapter :=
  chs.reverse.find? (fun ch => ch.chapter == n)

/-- A `(verse_number, text)` output line. -/
abbrev Line := Nat × List Char

/-- The single-chapter walk (lines 238–243): sequential append of every
verse whose number lies in `[sv, ev]`. -/
def singleChapterLines (ch : PyChapter) (sv ev : Nat) : List Line :=
  ch.verses.foldl
    (fun acc v => if sv ≤ v.verse && v.verse ≤ ev then acc ++ [(v.verse, v.text)] else acc) []

/-- First block of the cross-chapter walk (lines 206–213): verses of the
start chapter with number ≥ `sv`, appended in store order. -/
def crossFirstLines (chs : List PyChapter) (sc sv : Nat) : List Line :=
  match lookupChapter chs sc with
  | some ch =>
    ch.verses.foldl
      (fun acc v => if sv ≤ v.verse then acc ++ [(v.verse, v.text)] else acc) []
  | none => []

/-- Second block (lines 215–222): every verse of
`range(start_chapter + 1, end_chapter)`, appended onto `init`. -/
def crossMiddleLines (chs : List PyChapter) (sc ec : Nat) (init : List Line) : List Line :=
  (List.range' (sc + 1) (ec - (sc + 1))).foldl
    (fun acc n =>
      match lookupChapter chs n with
      | some ch => ch.verses.foldl (fun a v => a ++ [(v.verse, v.text)]) acc
      | none => acc) init

/-- Third block (lines 224–231): verses of the end chapter with number ≤
`ev`, appended onto `init`. -/
def crossLastLines (chs : List PyChapter) (ec ev : Nat) (init : List Line) : List Line :=
  match lookupChapter chs ec with
  | some ch =>
    ch.verses.foldl
      (fun acc v => if v.verse ≤ ev then acc ++ [(v.verse, v.text)] else acc) init
  | none => init

/-- The cross-chapter walk (lines 204–231): the three blocks run in
sequence on the shared `result_lines` accumulator; missing chapters
contribute nothing. -/
def crossChapterLines (chs : List PyChapter) (sc sv ec ev : Nat) : List Line :=
  crossLastLines chs ec ev (crossMiddleLines chs sc ec (crossFirstLines chs sc sv))

/-- The verse-walking core of `get_bible_text`: cross-chapter ranges walk
three chapter groups; single-chapter ranges require the chapter to be
present (early `return` with a "Chapter … not found." message otherwise). -/
def getBibleLines (book : List Char) (chs : List PyChapter) (sc sv ec ev : Nat) :
    Except (List Char) (List Line) :=
  if ec > sc then .ok (crossChapterLines chs sc sv ec ev)
  else
    match lookupChapter chs sc with
    | none =>
      .error ("Chapter ".data ++ natChars sc ++ " of ".data ++ book ++ " not found.".data)
    | some ch => .ok (singleChapterLines ch sv ev)

/-- The header reconstructed by `get_bible_text` (lines 245–252). -/
def makeHeader (book : List Char) (sc sv ec ev : Nat) : List Char :=
  if ec > sc then
    book ++ (' ' :: natChars sc) ++ (':' :: natChars sv) ++ ('-' :: natChars ec) ++
      (':' :: natChars ev)
  else
    book ++ (' ' :: natChars sc) ++ (':' :: natChars sv) ++
      (if ev ≠ sv then '-' :: natChars ev else [])

/-- `BOOK_CODES` (lines 40–58), in source order; the Python dict keeps the
last value for a duplicated key, so lookup searches from the end. -/
def BOOK_CODES : List (List Char × List Char) :=
  [("Genesis".data, "GEN".data), ("Exodus".data, "EXO".data), ("Leviticus".data, "LEV".data),
   ("Numbers".data, "NUM".data), ("Deuteronomy".data, "DEU".data), ("Joshua".data, "JOS".data),
   ("Judges".data, "JDG".data), ("Ruth".data, "RUT".data), ("1 Samuel".data, "1SA".data),
   ("2 Samuel".data, "2SA".data), ("1 Kings".data, "1KI".data), ("2 Kings".data, "2KI".data),
   ("1 Chronicles".data, "1CH".data), ("2 Chronicles".data, "2CH".data), ("Ezra".data, "EZR".data),
   ("Nehemiah".data, "NEH".data), ("Esther".data, "EST".data), ("Job".data, "JOB".data),
   ("Psalms".data, "PSA".data), ("Proverbs".data, "PRO".data), ("Ecclesiastes".data, "ECC".data),
   ("Song of Solomon".data, "SNG".data), ("Isaiah".data, "ISA".data), ("Jeremiah".data, "JER".data),
   ("Lamentations".data, "LAM".data), ("Ezekiel".data, "EZK".data), ("Daniel".data, "DAN".data),
   ("Hosea".data, "HOS".data), ("Joel".data, "JOL".data), ("Amos".data, "AMO".data),
   ("Obadiah".data, "OBA".data), ("Jonah".data, "JON".data), ("Micah".data, "MIC".data),
   ("Nahum".data, "NAM".data), ("Habakkuk".data, "HAB".data), ("Zephaniah".data, "ZEP".data),
   ("Haggai".data, "HAG".data), ("Zechariah".data, "ZEC".data), ("Malachi".data, "MAL".data),
   ("Matthew".data, "MAT".data), ("Mark".data, "MRK".data), ("Luke".data, "LUK".data),
   ("John".data, "JHN".data), ("Acts".data, "ACT".data), ("Romans".data, "ROM".data),
   ("1 Corinthians".data, "1CO".data), ("2 Corinthians".data, "2CO".data),
   ("Galatians".data, "GAL".data), ("Ephesians".data, "EPH".data),
   ("Philippians".data, "PHP".data), ("Colossians".data, "COL".data),
   ("1 Thessalonians".data, "1TH".data), ("2 Thessalonians".data, "2TH".data),
   ("1 Timothy".data, "1TI".data), ("2 Timothy".data, "2TI".data), ("Titus".data, "TIT".data),
   ("Philemon".data, "PHM".data), ("Hebrews".data, "HEB".data), ("James".data, "JAS".data),
   ("1 Peter".data, "1PE".data), ("2 Peter".data, "2PE".data), ("1 John".data, "1JN".data),
   ("2 John".data, "2JN".data), ("3 John".data, "3JN".data), ("Jude".data, "JUD".data),
   ("Revelation".data, "REV".data), ("Wisdom of Solomon".data, "WIS".data),
   ("Sirach".data, "SIR".data), ("Baruch".data, "BAR".data), ("1 Maccabees".data, "1MA".data),
   ("2 Maccabees".data, "2MA".data), ("3 Maccabees".data, "3MA".data),
   ("4 Maccabees".data, "4MA".data), ("Tobit".data, "TOB".data), ("Judith".data, "JDT".data),
   ("Esther (Greek)".data, "ESG".data), ("2 Maccabees".data, "2MA".data),
   ("Tobit".data, "TOB".data), ("Judith".data, "JDT".data), ("Esther (Greek)".data, "ESG".data),
   ("Psalm 151".data, "P151".data), ("Prayer of Manasseh".data, "MAN".data),
   ("1 Esdras".data, "1ES".data), ("2 Esdras".data, "2ES".data)]

/-- `BOOK_CODES.get(book)`. -/
def lookupBookCode (book : List Char) : Option (List Char) :=
  (BOOK_CODES.reverse.find? (fun pr => pr.1 == book)).map (fun pr => pr.2)

deriving instance DecidableEq for Except

/-- The `(verse_number, text)` line of one verse record. -/
def lineOf (v : PyVerse) : Line := (v.verse, v.text)

/-- A store in which Genesis 3 holds only verses 1 and 3. -/
def gapStore : List PyChapter := [⟨3, [⟨1, "a".data⟩, ⟨3, "c".data⟩]⟩]

/-- A three-chapter store for the Job 2:13-4:3 walk. -/
def jobStore : List PyChapter :=
  [⟨2, [⟨12, "x".data⟩, ⟨13, "y".data⟩]⟩, ⟨3, [⟨1, "z".data⟩]⟩,
    ⟨4, [⟨1, "p".data⟩, ⟨4, "q".data⟩]⟩]

/-- The verse list of a chapter, empty when the chapter is absent. -/
def chapterVerses (chs : List PyChapter) (n : Nat) : List PyVerse :=
  match lookupChapter chs n with
  | some ch => ch.verses
  | none => []

/-- Outcome of locating and loading the book's JSON file: the
`os.path.exists` check failing, an exception raised inside the `try`
block (I/O or data error), or parsed chapter data. -/
inductive LoadResult where
  | missing
  | err (e : List Char)
  | ok (chs : List PyChapter)

/-- `get_bible_text` (lines 165–284) with the file-system interaction
abstracted into a `LoadResult`; `colorize_text` is taken with colour
disabled, so the returned string is the plain text.  Every branch of the
source's `try`/`except` is represented, in particular the `except` branch
that converts any load error into an "Error reading …" string. -/
def get_bible_text (book : List Char) (load : LoadResult) (sc sv ec ev : Nat) : List Char :=
  match lookupBookCode book with
  | none => "Book '".data ++ book ++ "' not found.".data
  | some _ =>
    match load with
    | .missing => "Book ".data ++ book ++ " not found.".data
    | .err e =>
      if ec > sc then
        "Error reading ".data ++ book ++ (' ' :: natChars sc) ++ (':' :: natChars sv) ++
          ('-' :: natChars ec) ++ (':' :: natChars ev) ++ ": ".data ++ e
      else
        "Error reading ".data ++ book ++ (' ' :: natChars sc) ++ (':' :: natChars sv) ++
          ('-' :: natChars ev) ++ ": ".data ++ e
    | .ok chs =>
      match getBibleLines book chs sc sv ec ev with
      | .error msg => msg
      | .ok lines =>
        if lines.isEmpty then
          if ec > sc then
            "Verses ".data ++ natChars sc ++ (':' :: natChars sv) ++ ('-' :: natChars ec) ++
              (':' :: natChars ev) ++ " not found in ".data ++ book ++ ".".data
          else
            "Verses ".data ++ natChars sv ++ ('-' :: natChars ev) ++ " not found in ".data ++
              book ++ (' ' :: natChars sc) ++ ".".data
        else
          ('\n' :: makeHeader book sc sv ec ev) ++
            lines.foldl (fun acc l => acc ++ ('\n' :: natChars l.1) ++ (' ' :: l.2)) []

/-- Appended text containing no decimal digit. -/
def DigitFree (w : List Char) : Prop := ∀ c ∈ w, c.isDigit = false

/-- Patterns that fail outright on digit-free input, whatever the
continuation. -/
def DeadOn (P : RE) : Prop :=
  ∀ (w : List Char) (caps : Caps) (k : List Char → Caps → Option Caps),
    DigitFree w → reMatch P w caps k = none

/-- Patterns whose top-level match is unchanged by appending `u`. -/
def StabOn (u : List Char) (P : RE) : Prop :=
  ∀ (t : List Char) (caps : Caps), reMatch P (t ++ u) caps kfin = reMatch P t caps kfin

/-! ## Theorems -/

/-! ### Generic list lemmas about the sequential-append loops -/

theorem foldl_cond_append {α β : Type} (P : α → Bool) (f : α → β) :
    ∀ (l : List α) (init : List β),
      l.foldl (fun acc v => if P v then acc ++ [f v] else acc) init =
        init ++ (l.filter P).map f := by
  intro l
  induction l with
  | nil => intro init; simp
  | cons a t ih =>
    intro init
    by_cases h : P a
    · simp [List.foldl_cons, h, ih, List.append_assoc]
    · simp [List.foldl_cons, h, ih]

theorem foldl_ite_append {α β : Type} (P : α → Prop) [DecidablePred P] (f : α → β) :
    ∀ (l : List α) (init : List β),
      l.foldl (fun acc v => if P v then acc ++ [f v] else acc) init =
        init ++ (l.filter (fun v => decide (P v))).map f := by
  intro l
  induction l with
  | nil => intro init; simp
  | cons a t ih =>
    intro init
    by_cases h : P a
    · simp [List.foldl_cons, h, ih, List.append_assoc]
    · simp [List.foldl_cons, h, ih]

theorem foldl_append_map {α β : Type} (f : α → β) :
    ∀ (l : List α) (init : List β),
      l.foldl (fun acc v => acc ++ [f v]) init = init ++ l.map f := by
  intro l
  induction l with
  | nil => intro init; simp
  | cons a t ih => intro init; simp [List.foldl_cons, ih, List.append_assoc]

theorem foldl_chapters_flatten (chs : List PyChapter) :
    ∀ (ns : List Nat) (init : List Line),
      ns.foldl
        (fun acc n =>
          match lookupChapter chs n with
          | some ch => ch.verses.foldl (fun a v => a ++ [(v.verse, v.text)]) acc
          | none => acc) init =
        init ++ (ns.map (fun n => (chapterVerses chs n).map lineOf)).flatten := by
  intro ns
  induction ns with
  | nil => intro init; simp
  | cons n t ih =>
    intro init
    rw [List.foldl_cons]
    cases h : lookupChapter chs n with
    | none =>
      simp only [h]
      rw [ih]
      simp [chapterVerses, h]
    | some ch =>
      simp only [h]
      rw [foldl_append_map (fun v : PyVerse => (v.verse, v.text)) ch.verses init, ih]
      simp [chapterVerses, h, lineOf, List.append_assoc]

theorem extractSingle_ec_eq_sc (caps : Caps) (r : Ref) :
    extractSingle caps = some r → r.ec = r.sc := by
  unfold extractSingle
  cases getGrp caps 1 with
  | none => intro h; exact Option.noConfusion h
  | some g1 =>
  cases getGrp caps 2 with
  | none => intro h; exact Option.noConfusion h
  | some g2 =>
  cases getGrp caps 3 with
  | none => intro h; exact Option.noConfusion h
  | some g3 =>
  intro h
  cases h
  rfl

/-! ### C1 — single-chapter resolution and the missing placeholder lines -/

/-- C1, counterexample: for the store in which Genesis 3 holds only verses
1 and 3, resolving the single-chapter range 3:1–3 emits 2 lines, not
`end_verse - start_verse + 1 = 3`, and no "verse not found" placeholder
line is synthesized for the absent verse 2 — the claimed placeholder
behaviour does not exist in the code. -/
theorem thm_C1_counterexample :
    getBibleLines "Genesis".data gapStore 3 1 3 3 =
      .ok [(1, "a".data), (3, "c".data)] ∧
    ([(1, "a".data), (3, "c".data)] : List Line).length = 2 ∧ 2 ≠ 3 - 1 + 1 := by
  refine ⟨by decide, rfl, by decide⟩

/-- C1, amended: for a single-chapter reference whose chapter is present,
resolution emits exactly the verses of the chapter whose numbers lie in
`[start_verse, end_verse]`, in store order and with their exact text;
requested verse numbers absent from the chapter are omitted (no
placeholder line), so the line count equals the number of present verses
in the range; and when the stored verses are in strictly ascending order
the emitted lines are too. -/
theorem thm_C1_amended (book : List Char) (chs : List PyChapter) (sc sv ev : Nat)
    (ch : PyChapter) (h : lookupChapter chs sc = some ch) :
    getBibleLines book chs sc sv sc ev =
      .ok ((ch.verses.filter (fun v => sv ≤ v.verse && v.verse ≤ ev)).map lineOf) ∧
    (List.Pairwise (fun a b => a.verse < b.verse) ch.verses →
      List.Pairwise (fun a b : Line => a.1 < b.1)
        ((ch.verses.filter (fun v => sv ≤ v.verse && v.verse ≤ ev)).map lineOf)) := by
  constructor
  · have hstep : getBibleLines book chs sc sv sc ev = .ok (singleChapterLines ch sv ev) := by
      unfold getBibleLines
      rw [if_neg (lt_irrefl sc), h]
    rw [hstep]
    unfold singleChapterLines
    rw [foldl_cond_append (fun v => sv ≤ v.verse && v.verse ≤ ev)
      (fun v : PyVerse => (v.verse, v.text)) ch.verses []]
    rfl
  · intro hsorted
    rw [List.pairwise_map]
    exact (hsorted.filter _)

/-- C1 witness: instantiating the amended theorem at a concrete store. -/
theorem thm_C1_amended_witness :
    getBibleLines "Genesis".data gapStore 3 1 3 3 =
      .ok (([⟨1, "a".data⟩, ⟨3, "c".data⟩].filter
        (fun v : PyVerse => 1 ≤ v.verse && v.verse ≤ 3)).map lineOf) :=
  (thm_C1_amended "Genesis".data gapStore 3 1 3
    ⟨3, [⟨1, "a".data⟩, ⟨3, "c".data⟩]⟩ (by decide)).1

/-! ### C2 — splitting the composite reading string -/

/-- C2, counterexample: the top-level bullet split runs before composite
handling, so the semicolon group `"Psalms 1:1-2; John 1:1"` is *not*
split: the splitter yields two raw citations, not the claimed three. -/
theorem thm_C2_counterexample :
    cleanReadings "Composite 1 - Genesis 3:1-8 • Psalms 1:1-2; John 1:1".data =
      ["Genesis 3:1-8".data, "Psalms 1:1-2; John 1:1".data] ∧
    (cleanReadings "Composite 1 - Genesis 3:1-8 • Psalms 1:1-2; John 1:1".data).length ≠ 3 := by
  constructor
  · decide
  · decide

/-- C2, amended: splitting `"Composite 1 - Genesis 3:1-8 • Psalms 1:1-2;
John 1:1"` yields the two ordered raw citations `"Genesis 3:1-8"` and
`"Psalms 1:1-2; John 1:1"`: the top-level bullet split happens first, and
semicolon splitting applies only inside a segment that itself begins with
the composite marker (as `"Composite 1 - Genesis 3:1-8; John 1:1"`
demonstrates). -/
theorem thm_C2_amended :
    cleanReadings "Composite 1 - Genesis 3:1-8 • Psalms 1:1-2; John 1:1".data =
      ["Genesis 3:1-8".data, "Psalms 1:1-2; John 1:1".data] ∧
    cleanReadings "Composite 1 - Genesis 3:1-8; John 1:1".data =
      ["Genesis 3:1-8".data, "John 1:1".data] := by
  constructor
  · decide
  · decide

/-! ### C3 — the parser performs no ordering validation -/

/-- C3, counterexample: `"Genesis 5:3-2:7"` is accepted by the parser and
yields `end_chapter = 2 < 5 = start_chapter`: the claimed invariant
`end_chapter ≥ start_chapter` does not hold for every accepted input, and
the cross-chapter branch fires without requiring `ch2 > ch1`. -/
theorem thm_C3_counterexample :
    parse_reading_reference "Genesis 5:3-2:7".data =
      some ⟨"Genesis".data, 5, 3, 2, 7⟩ ∧ 2 < 5 := by
  constructor
  · decide
  · decide

/-- C3, amended: the parser validates no ordering at all — accepted inputs
may violate both `end_chapter ≥ start_chapter` and `end_verse ≥
start_verse`; what does hold is that the single-chapter branch always
returns `end_chapter = start_chapter`, so whenever an accepted result has
`end_chapter ≠ start_chapter` the cross-chapter pattern matched the
normalised citation. -/
theorem thm_C3_amended (s : List Char) (r : Ref)
    (h : parse_reading_reference s = some r) (hne : r.ec ≠ r.sc) :
    (runRE crossPat (stripPy (dotToColon (subKings (wisdomReplace s))))).isSome := by
  unfold parse_reading_reference matchStage at h
  cases hc : runRE crossPat (stripPy (dotToColon (subKings (wisdomReplace s)))) with
  | some caps => simp [hc]
  | none =>
    rw [hc] at h
    cases hs : runRE singlePat (stripPy (dotToColon (subKings (wisdomReplace s)))) with
    | none => rw [hs] at h; exact absurd h (by simp)
    | some caps =>
      rw [hs] at h
      exact absurd (extractSingle_ec_eq_sc caps r h) hne

/-- C3 witness: the amended theorem applies to the genuinely cross-chapter
citation `"Exodus 15.22-16.1"`. -/
theorem thm_C3_amended_witness :
    (runRE crossPat (stripPy (dotToColon (subKings
      (wisdomReplace "Exodus 15.22-16.1".data))))).isSome :=
  thm_C3_amended "Exodus 15.22-16.1".data ⟨"Exodus".data, 15, 22, 16, 1⟩
    (by decide) (by decide)

/-! ### C4 — cross-chapter resolution walks the three chapter groups -/

/-- C4: for every cross-chapter reference (`end_chapter > start_chapter`),
resolution emits, in order, the start chapter's verses with number ≥
`start_verse`, then every verse of each strictly-between chapter in
ascending chapter order, then the end chapter's verses with number ≤
`end_verse`; only verses present in the store appear (each line is the
image of a stored verse) and no placeholder lines are synthesized. -/
theorem thm_C4 (book : List Char) (chs : List PyChapter) (sc sv ec ev : Nat)
    (h : sc < ec) :
    getBibleLines book chs sc sv ec ev =
      .ok (((chapterVerses chs sc).filter (fun v => sv ≤ v.verse)).map lineOf ++
        ((List.range' (sc + 1) (ec - (sc + 1))).map
          (fun n => (chapterVerses chs n).map lineOf)).flatten ++
        ((chapterVerses chs ec).filter (fun v => v.verse ≤ ev)).map lineOf) := by
  have hstep : getBibleLines book chs sc sv ec ev = .ok (crossChapterLines chs sc sv ec ev) := by
    unfold getBibleLines
    rw [if_pos h]
  have h1 : crossFirstLines chs sc sv =
      ((chapterVerses chs sc).filter (fun v => sv ≤ v.verse)).map lineOf := by
    unfold crossFirstLines
    cases hsc : lookupChapter chs sc with
    | none => simp [chapterVerses, hsc]
    | some ch =>
      have hfc := foldl_ite_append (fun v : PyVerse => sv ≤ v.verse)
        (fun v : PyVerse => (v.verse, v.text)) ch.verses []
      simp only [List.nil_append] at hfc
      simpa [chapterVerses, hsc, lineOf] using hfc
  have h2 : ∀ init, crossMiddleLines chs sc ec init =
      init ++ ((List.range' (sc + 1) (ec - (sc + 1))).map
        (fun n => (chapterVerses chs n).map lineOf)).flatten := by
    intro init
    unfold crossMiddleLines
    exact foldl_chapters_flatten chs (List.range' (sc + 1) (ec - (sc + 1))) init
  have h3 : ∀ init, crossLastLines chs ec ev init =
      init ++ ((chapterVerses chs ec).filter (fun v => v.verse ≤ ev)).map lineOf := by
    intro init
    unfold crossLastLines
    cases hec : lookupChapter chs ec with
    | none => simp [chapterVerses, hec]
    | some ch =>
      dsimp only
      rw [foldl_ite_append (fun v : PyVerse => v.verse ≤ ev)
        (fun v : PyVerse => (v.verse, v.text)) ch.verses init]
      simp [chapterVerses, hec, lineOf]
  rw [hstep]
  unfold crossChapterLines
  rw [h3, h2, h1, List.append_assoc]

/-- C4 witness: the theorem at a concrete three-chapter store for a
`Job 2:13-4:3`-style walk. -/
theorem thm_C4_witness :
    getBibleLines "Job".data jobStore 2 13 4 3 =
      .ok (((chapterVerses jobStore 2).filter (fun v => 13 ≤ v.verse)).map lineOf ++
        ((List.range' (2 + 1) (4 - (2 + 1))).map
          (fun n => (chapterVerses jobStore n).map lineOf)).flatten ++
        ((chapterVerses jobStore 4).filter (fun v => v.verse ≤ 3)).map lineOf) :=
  thm_C4 "Job".data jobStore 2 13 4 3 (by decide)

/-! ### C5 — the Kings rewrite and dot normalisation -/

/-- C5: `"3[1] Kings 2.6-14"` parses to exactly the same canonical 5-tuple
as `"1 Kings 2:6-14"`, namely `('1 Kings', 2, 6, 2, 14)`. -/
theorem thm_C5 :
    parse_reading_reference "3[1] Kings 2.6-14".data =
      some ⟨"1 Kings".data, 2, 6, 2, 14⟩ ∧
    parse_reading_reference "1 Kings 2:6-14".data =
      some ⟨"1 Kings".data, 2, 6, 2, 14⟩ := by
  constructor
  · decide
  · decide

/-! ### C6 — comma-joined citation series -/

/-- C6: the comma-joined citation string `"Genesis 3:1-8, 10, 12-14"`
parses into exactly the three canonical references `(Genesis,3,1,3,8)`,
`(Genesis,3,10,3,10)`, `(Genesis,3,12,3,14)`, the bare parts inheriting
the book and chapter of the first part. -/
theorem thm_C6 :
    commaSeries "Genesis 3:1-8, 10, 12-14".data =
      .ok [⟨"Genesis".data, 3, 1, 3, 8⟩, ⟨"Genesis".data, 3, 10, 3, 10⟩,
        ⟨"Genesis".data, 3, 12, 3, 14⟩] := by
  decide

/-! ### C7 — which chapter a bare continuation token inherits -/

/-- C7, counterexample: in `"Genesis 3:1-8, 4:2, 5"` the final bare token
`"5"` is resolved against the *first* parsed reference (chapter 3), not
the preceding `4:2` override: the code yields Genesis 3:5, and 3 ≠ 4. -/
theorem thm_C7_counterexample :
    commaSeries "Genesis 3:1-8, 4:2, 5".data =
      .ok [⟨"Genesis".data, 3, 1, 3, 8⟩, ⟨"Genesis".data, 4, 2, 4, 2⟩,
        ⟨"Genesis".data, 3, 5, 3, 5⟩] ∧ (3 : Nat) ≠ 4 := by
  constructor
  · decide
  · decide

/-- C7, amended: a chapter-less verse token and a chapter-less
verse-range token in a comma series always inherit the book and
`start_chapter` of the *first* reference of the series
(`parsed_references[0]`), regardless of any intervening chapter-override
part; e.g. in `"Genesis 3:1-8, 4:2, 5"` the final token denotes
Genesis 3:5, and a final `"12-14"` would denote Genesis 3:12-14. -/
theorem thm_C7_amended (acc : List Ref) (r0 : Ref) (rest : List Ref)
    (part : List Char) (hacc : acc = r0 :: rest)
    (h1 : hasChar ':' part = false) (h2 : hasChar '.' part = false) :
    (∀ n : Nat, hasChar '-' part = false → intPy part = some n →
      commaStep acc part = .ok (acc ++ [⟨r0.book, r0.sc, n, r0.sc, n⟩])) ∧
    (∀ (a b : List Char) (va vb : Nat), hasChar '-' part = true →
      splitPy part ['-'] = [a, b] → intPy a = some va → intPy b = some vb →
      commaStep acc part = .ok (acc ++ [⟨r0.book, r0.sc, va, r0.sc, vb⟩])) := by
  subst hacc
  constructor
  · intro n h3 h4
    unfold commaStep
    rw [h1, h2, h3, h4]
    simp
  · intro a b va vb h3 h4 h5 h6
    unfold commaStep
    rw [h1, h2, h3, h4]
    simp [h5, h6]

/-- C7 witness: the amended theorem at the concrete series state reached
after `"Genesis 3:1-8, 4:2"`, for both a bare verse token and a
verse-range token. -/
theorem thm_C7_amended_witness :
    commaStep [⟨"Genesis".data, 3, 1, 3, 8⟩, ⟨"Genesis".data, 4, 2, 4, 2⟩] "5".data =
      .ok [⟨"Genesis".data, 3, 1, 3, 8⟩, ⟨"Genesis".data, 4, 2, 4, 2⟩,
        ⟨"Genesis".data, 3, 5, 3, 5⟩] ∧
    commaStep [⟨"Genesis".data, 3, 1, 3, 8⟩, ⟨"Genesis".data, 4, 2, 4, 2⟩] "12-14".data =
      .ok [⟨"Genesis".data, 3, 1, 3, 8⟩, ⟨"Genesis".data, 4, 2, 4, 2⟩,
        ⟨"Genesis".data, 3, 12, 3, 14⟩] :=
  ⟨(thm_C7_amended _ ⟨"Genesis".data, 3, 1, 3, 8⟩ [⟨"Genesis".data, 4, 2, 4, 2⟩]
      "5".data rfl (by decide) (by decide)).1 5 (by decide) (by decide),
   (thm_C7_amended _ ⟨"Genesis".data, 3, 1, 3, 8⟩ [⟨"Genesis".data, 4, 2, 4, 2⟩]
      "12-14".data rfl (by decide) (by decide)).2 "12".data "14".data 12 14
     (by decide) (by decide) (by decide) (by decide)⟩

/-! ### C9 — store errors become error strings -/

/-- C9: for a registered book, any I/O or data error raised while loading
the verse store is caught by `get_bible_text` and converted into an
"Error reading …: e" string that embeds the error; the function is total,
so no exception ever propagates to the caller and the remaining citations
of a batch are still processed. -/
theorem thm_C9 (book code : List Char) (sc sv ec ev : Nat) (e : List Char)
    (h : lookupBookCode book = some code) :
    ∃ t, get_bible_text book (.err e) sc sv ec ev =
      "Error reading ".data ++ t ++ ": ".data ++ e := by
  unfold get_bible_text
  simp only [h]
  by_cases hc : ec > sc
  · rw [if_pos hc]
    exact ⟨book ++ (' ' :: natChars sc) ++ (':' :: natChars sv) ++ ('-' :: natChars ec) ++
      (':' :: natChars ev), by simp [List.append_assoc]⟩
  · rw [if_neg hc]
    exact ⟨book ++ (' ' :: natChars sc) ++ (':' :: natChars sv) ++ ('-' :: natChars ev),
      by simp [List.append_assoc]⟩

/-- C9 witness: the theorem at the cross-chapter reference Job 2:13-4:3
with a concrete load error. -/
theorem thm_C9_witness :
    ∃ t, get_bible_text "Job".data (.err "boom".data) 2 13 4 3 =
      "Error reading ".data ++ t ++ ": ".data ++ "boom".data :=
  thm_C9 "Job".data "JOB".data 2 13 4 3 "boom".data (by decide)

/-! ### Lemmas about `tryFrom` and `maxRun` -/

theorem tryFrom_none {α : Type} (f : Nat → Option α) :
    ∀ n, (∀ i, 1 ≤ i → i ≤ n → f i = none) → tryFrom f n = none := by
  intro n
  induction n with
  | zero => intro _; rfl
  | succ m ih =>
    intro h
    show (f (m + 1)).orElse (fun _ => tryFrom f m) = none
    rw [h (m + 1) (by omega) (le_refl _)]
    show tryFrom f m = none
    exact ih (fun i h1 h2 => h i h1 (by omega))

theorem tryFrom_congr {α : Type} {f g : Nat → Option α} :
    ∀ n, (∀ i, 1 ≤ i → i ≤ n → f i = g i) → tryFrom f n = tryFrom g n := by
  intro n
  induction n with
  | zero => intro _; rfl
  | succ m ih =>
    intro h
    show (f (m + 1)).orElse (fun _ => tryFrom f m) =
      (g (m + 1)).orElse (fun _ => tryFrom g m)
    rw [h (m + 1) (by omega) (le_refl _), ih (fun i h1 h2 => h i h1 (by omega))]

theorem tryFrom_extend {α : Type} (f : Nat → Option α) :
    ∀ m n, n ≤ m → (∀ i, n < i → i ≤ m → f i = none) → tryFrom f m = tryFrom f n := by
  intro m
  induction m with
  | zero =>
    intro n hn _
    rw [Nat.le_zero.mp hn]
  | succ mm ih =>
    intro n hn h
    by_cases hc : n = mm + 1
    · rw [hc]
    · have hn' : n ≤ mm := by omega
      show (f (mm + 1)).orElse (fun _ => tryFrom f mm) = tryFrom f n
      rw [h (mm + 1) (by omega) (le_refl _)]
      show tryFrom f mm = tryFrom f n
      exact ih n hn' (fun i h1 h2 => h i h1 (by omega))

theorem tryFrom_first {α : Type} (f : Nat → Option α) (r : α) :
    ∀ n j, 1 ≤ j → j ≤ n → f j = some r → (∀ i, j < i → i ≤ n → f i = none) →
      tryFrom f n = some r := by
  intro n
  induction n with
  | zero => intro j h1 h2 _ _; omega
  | succ m ih =>
    intro j h1 h2 hj hnone
    by_cases hc : j = m + 1
    · show (f (m + 1)).orElse (fun _ => tryFrom f m) = some r
      rw [← hc, hj]
      rfl
    · show (f (m + 1)).orElse (fun _ => tryFrom f m) = some r
      rw [hnone (m + 1) (by omega) (le_refl _)]
      show tryFrom f m = some r
      exact ih j h1 (by omega) hj (fun i hi1 hi2 => hnone i hi1 (by omega))

theorem tryFrom_some {α : Type} (f : Nat → Option α) (r : α) :
    ∀ n, tryFrom f n = some r → ∃ i, 1 ≤ i ∧ i ≤ n ∧ f i = some r := by
  intro n
  induction n with
  | zero => intro h; exact Option.noConfusion h
  | succ m ih =>
    intro h
    have h' : (f (m + 1)).orElse (fun _ => tryFrom f m) = some r := h
    cases hf : f (m + 1) with
    | some a =>
      rw [hf] at h'
      exact ⟨m + 1, by omega, le_refl _, by rw [hf]; exact h'⟩
    | none =>
      rw [hf] at h'
      have : tryFrom f m = some r := h'
      obtain ⟨i, hi1, hi2, hi3⟩ := ih this
      exact ⟨i, hi1, by omega, hi3⟩

theorem tryFrom0_some {α : Type} (f : Nat → Option α) (r : α) :
    ∀ n, tryFrom0 f n = some r → ∃ i, i ≤ n ∧ f i = some r := by
  intro n
  induction n with
  | zero => intro h; exact ⟨0, le_refl _, h⟩
  | succ m ih =>
    intro h
    have h' : (f (m + 1)).orElse (fun _ => tryFrom0 f m) = some r := h
    cases hf : f (m + 1) with
    | some a =>
      rw [hf] at h'
      exact ⟨m + 1, le_refl _, by rw [hf]; exact h'⟩
    | none =>
      rw [hf] at h'
      have : tryFrom0 f m = some r := h'
      obtain ⟨i, hi1, hi2⟩ := ih this
      exact ⟨i, by omega, hi2⟩

theorem maxRun_le_length (p : Char → Bool) : ∀ s, maxRun p s ≤ s.length := by
  intro s
  induction s with
  | nil => exact le_refl _
  | cons c rest ih =>
    show (if p c then maxRun p rest + 1 else 0) ≤ rest.length + 1
    by_cases h : p c
    · rw [if_pos h]; omega
    · rw [if_neg h]; omega

theorem maxRun_all (p : Char → Bool) :
    ∀ s, (∀ c ∈ s, p c = true) → maxRun p s = s.length := by
  intro s
  induction s with
  | nil => intro _; rfl
  | cons c rest ih =>
    intro h
    show (if p c then maxRun p rest + 1 else 0) = rest.length + 1
    rw [if_pos (h c (List.mem_cons_self c rest)),
      ih (fun x hx => h x (List.mem_cons_of_mem c hx))]

theorem all_of_maxRun_eq_length (p : Char → Bool) :
    ∀ s, maxRun p s = s.length → ∀ c ∈ s, p c = true := by
  intro s
  induction s with
  | nil => intro _ c hc; exact absurd hc (List.not_mem_nil c)
  | cons c rest ih =>
    intro h x hx
    by_cases hpc : p c
    · have h' : maxRun p rest = rest.length := by
        have : (if p c then maxRun p rest + 1 else 0) = rest.length + 1 := h
        rw [if_pos hpc] at this
        omega
      rcases List.mem_cons.mp hx with hx1 | hx2
      · rw [hx1]; exact hpc
      · exact ih h' x hx2
    · have : (if p c then maxRun p rest + 1 else 0) = rest.length + 1 := h
      rw [if_neg hpc] at this
      omega

theorem maxRun_append_all (p : Char → Bool) :
    ∀ a b, (∀ c ∈ a, p c = true) → maxRun p (a ++ b) = a.length + maxRun p b := by
  intro a
  induction a with
  | nil => intro b _; simp
  | cons c rest ih =>
    intro b h
    show (if p c then maxRun p (rest ++ b) + 1 else 0) = rest.length + 1 + maxRun p b
    rw [if_pos (h c (List.mem_cons_self c rest)),
      ih b (fun x hx => h x (List.mem_cons_of_mem c hx))]
    omega

theorem maxRun_append_lt (p : Char → Bool) :
    ∀ a b, maxRun p a < a.length → maxRun p (a ++ b) = maxRun p a := by
  intro a
  induction a with
  | nil => intro b h; exact absurd h (by simp)
  | cons c rest ih =>
    intro b h
    by_cases hpc : p c
    · have h' : maxRun p rest < rest.length := by
        have : (if p c then maxRun p rest + 1 else 0) < rest.length + 1 := h
        rw [if_pos hpc] at this
        omega
      show (if p c then maxRun p (rest ++ b) + 1 else 0) = _
      rw [if_pos hpc, ih b h']
      show maxRun p rest + 1 = (if p c then maxRun p rest + 1 else 0)
      rw [if_pos hpc]
    · show (if p c then maxRun p (rest ++ b) + 1 else 0) = _
      rw [if_neg hpc]
      show 0 = (if p c then maxRun p rest + 1 else 0)
      rw [if_neg hpc]

theorem maxRun_zero_of (p : Char → Bool) (w : List Char)
    (h : ∀ c ∈ w, p c = false) : maxRun p w = 0 := by
  cases w with
  | nil => rfl
  | cons c rest =>
    show (if p c then maxRun p rest + 1 else 0) = 0
    rw [if_neg (by rw [h c (List.mem_cons_self c rest)]; exact Bool.false_ne_true)]

theorem maxRun_stable (p : Char → Bool) (u : List Char)
    (hu : ∀ c ∈ u, p c = false) : ∀ t, maxRun p (t ++ u) = maxRun p t := by
  intro t
  by_cases h : maxRun p t < t.length
  · exact maxRun_append_lt p t u h
  · have heq : maxRun p t = t.length := le_antisymm (maxRun_le_length p t) (not_lt.mp h)
    rw [maxRun_append_all p t u (all_of_maxRun_eq_length p t heq), maxRun_zero_of p u hu, heq]
    omega

theorem all_take_of_le_maxRun (p : Char → Bool) :
    ∀ s i, i ≤ maxRun p s → ∀ c ∈ s.take i, p c = true := by
  intro s
  induction s with
  | nil => intro i _ c hc; rw [List.take_nil] at hc; exact absurd hc (List.not_mem_nil c)
  | cons a rest ih =>
    intro i hi c hc
    cases i with
    | zero => exact absurd hc (by simp)
    | succ j =>
      by_cases hpa : p a
      · have hj : j ≤ maxRun p rest := by
          have : j + 1 ≤ (if p a then maxRun p rest + 1 else 0) := hi
          rw [if_pos hpa] at this
          omega
        rw [List.take_succ_cons] at hc
        rcases List.mem_cons.mp hc with h1 | h2
        · rw [h1]; exact hpa
        · exact ih j hj c h2
      · have : j + 1 ≤ (if p a then maxRun p rest + 1 else 0) := hi
        rw [if_neg hpa] at this
        omega

/-! ### Unfolding equations for `reMatch` -/

theorem reMatch_chr_nil (p : Char → Bool) (caps : Caps)
    (k : List Char → Caps → Option σ) : reMatch (.chr p) [] caps k = none := rfl

theorem reMatch_chr_cons (p : Char → Bool) (c : Char) (s : List Char) (caps : Caps)
    (k : List Char → Caps → Option σ) :
    reMatch (.chr p) (c :: s) caps k = if p c then k s caps else none := rfl

theorem reMatch_plus (p : Char → Bool) (s : List Char) (caps : Caps)
    (k : List Char → Caps → Option σ) :
    reMatch (.plus p) s caps k = tryFrom (fun i => k (s.drop i) caps) (maxRun p s) := rfl

theorem reMatch_star (p : Char → Bool) (s : List Char) (caps : Caps)
    (k : List Char → Caps → Option σ) :
    reMatch (.star p) s caps k = tryFrom0 (fun i => k (s.drop i) caps) (maxRun p s) := rfl

theorem reMatch_seq (a b : RE) (s : List Char) (caps : Caps)
    (k : List Char → Caps → Option σ) :
    reMatch (.seq a b) s caps k = reMatch a s caps (fun s2 c2 => reMatch b s2 c2 k) := rfl

theorem reMatch_opt (a : RE) (s : List Char) (caps : Caps)
    (k : List Char → Caps → Option σ) :
    reMatch (.opt a) s caps k = (reMatch a s caps k).orElse (fun _ => k s caps) := rfl

theorem reMatch_grp (i : Nat) (a : RE) (s : List Char) (caps : Caps)
    (k : List Char → Caps → Option σ) :
    reMatch (.grp i a) s caps k =
      reMatch a s caps (fun s2 c2 => k s2 ((i, s.take (s.length - s2.length)) :: c2)) := rfl

theorem reMatch_lit (cs : List Char) (s : List Char) (caps : Caps)
    (k : List Char → Caps → Option σ) :
    reMatch (.lit cs) s caps k =
      if cs.isPrefixOf s then k (s.drop cs.length) caps else none := rfl

/-! ### Extension stability of the matcher

Appending text that contains no digit cannot change the result of
matching `crossPat` or `singlePat`: every way the matcher could consume
appended characters leads into a mandatory `(\d+)` token that the
appended text cannot satisfy. -/

theorem digitFree_drop {u : List Char} (hu : DigitFree u) (j : Nat) :
    DigitFree (u.drop j) := fun c hc => hu c (List.mem_of_mem_drop hc)

theorem digitFree_tail {u : List Char} {c : Char} (hu : DigitFree (c :: u)) :
    DigitFree u := fun x hx => hu x (List.mem_cons_of_mem c hx)

theorem deadOn_digits (g : Nat) : DeadOn (digitsRE g) := by
  intro w caps k hw
  show reMatch (.grp g (.plus Char.isDigit)) w caps k = none
  rw [reMatch_grp, reMatch_plus, maxRun_zero_of Char.isDigit w hw]
  rfl

theorem deadOn_seq_digits (g : Nat) (X : RE) : DeadOn (.seq (digitsRE g) X) := by
  intro w caps k hw
  rw [reMatch_seq]
  exact deadOn_digits g w caps _ hw

theorem deadOn_seq_chr (p : Char → Bool) (X : RE) (hX : DeadOn X) :
    DeadOn (.seq (.chr p) X) := by
  intro w caps k hw
  rw [reMatch_seq]
  cases w with
  | nil => exact reMatch_chr_nil p caps _
  | cons c rest =>
    rw [reMatch_chr_cons]
    by_cases hpc : p c
    · rw [if_pos hpc]
      exact hX rest caps k (digitFree_tail hw)
    · rw [if_neg hpc]

theorem deadOn_seq_plus (p : Char → Bool) (X : RE) (hX : DeadOn X) :
    DeadOn (.seq (.plus p) X) := by
  intro w caps k hw
  rw [reMatch_seq, reMatch_plus]
  apply tryFrom_none
  intro i _ _
  exact hX (w.drop i) caps k (digitFree_drop hw i)

theorem stabOn_digits (u : List Char) (hud : DigitFree u) (g : Nat) :
    StabOn u (digitsRE g) := by
  intro t caps
  show reMatch (.grp g (.plus Char.isDigit)) (t ++ u) caps kfin =
    reMatch (.grp g (.plus Char.isDigit)) t caps kfin
  rw [reMatch_grp, reMatch_grp, reMatch_plus, reMatch_plus,
    maxRun_stable Char.isDigit u (fun c hc => hud c hc) t]
  apply tryFrom_congr
  intro j h1 h2
  have hjt : j ≤ t.length := le_trans h2 (maxRun_le_length _ t)
  have e1 : (t ++ u).length - ((t ++ u).drop j).length = j := by
    rw [List.length_drop, List.length_append]
    omega
  have e2 : t.length - (t.drop j).length = j := by
    rw [List.length_drop]
    omega
  rw [e1, e2, List.take_append_of_le_length hjt]
  rfl

theorem stabOn_seq_digits (u : List Char) (hud : DigitFree u) (g : Nat) (X : RE)
    (hX : StabOn u X) : StabOn u (.seq (digitsRE g) X) := by
  intro t caps
  rw [reMatch_seq, reMatch_seq]
  show reMatch (.grp g (.plus Char.isDigit)) (t ++ u) caps _ =
    reMatch (.grp g (.plus Char.isDigit)) t caps _
  rw [reMatch_grp, reMatch_grp, reMatch_plus, reMatch_plus,
    maxRun_stable Char.isDigit u (fun c hc => hud c hc) t]
  apply tryFrom_congr
  intro j h1 h2
  have hjt : j ≤ t.length := le_trans h2 (maxRun_le_length _ t)
  have e1 : (t ++ u).length - ((t ++ u).drop j).length = j := by
    rw [List.length_drop, List.length_append]
    omega
  have e2 : t.length - (t.drop j).length = j := by
    rw [List.length_drop]
    omega
  rw [e1, e2, List.take_append_of_le_length hjt, List.drop_append_of_le_length hjt]
  exact hX (t.drop j) ((g, t.take j) :: caps)

theorem stabOn_seq_chr (u : List Char) (hud : DigitFree u) (p : Char → Bool) (X : RE)
    (hX : StabOn u X) (hdX : DeadOn X) : StabOn u (.seq (.chr p) X) := by
  intro t caps
  rw [reMatch_seq, reMatch_seq]
  cases t with
  | nil =>
    rw [List.nil_append]
    cases u with
    | nil => rfl
    | cons c urest =>
      rw [reMatch_chr_cons]
      by_cases hpc : p c
      · rw [if_pos hpc]
        exact hdX urest caps kfin (digitFree_tail hud)
      · rw [if_neg hpc]
        rfl
  | cons c trest =>
    rw [List.cons_append, reMatch_chr_cons, reMatch_chr_cons]
    by_cases hpc : p c
    · rw [if_pos hpc, if_pos hpc]
      exact hX trest caps
    · rw [if_neg hpc, if_neg hpc]

theorem stabOn_seq_plus (u : List Char) (hud : DigitFree u) (p : Char → Bool) (X : RE)
    (hX : StabOn u X) (hdX : DeadOn X) : StabOn u (.seq (.plus p) X) := by
  intro t caps
  rw [reMatch_seq, reMatch_seq, reMatch_plus, reMatch_plus]
  by_cases hM : maxRun p t < t.length
  · rw [maxRun_append_lt p t u hM]
    apply tryFrom_congr
    intro j _ h2
    have hjt : j ≤ t.length := le_of_lt (lt_of_le_of_lt h2 hM)
    rw [List.drop_append_of_le_length hjt]
    exact hX (t.drop j) caps
  · have hMeq : maxRun p t = t.length := le_antisymm (maxRun_le_length p t) (not_lt.mp hM)
    have hall : ∀ c ∈ t, p c = true := all_of_maxRun_eq_length p t hMeq
    rw [maxRun_append_all p t u hall, hMeq]
    have hdead : ∀ i, t.length < i → i ≤ t.length + maxRun p u →
        reMatch X ((t ++ u).drop i) caps kfin = none := by
      intro i hi1 _
      have hdu : (t ++ u).drop i = u.drop (i - t.length) := by
        conv_lhs => rw [show i = t.length + (i - t.length) by omega]
        exact List.drop_append _
      rw [hdu]
      exact hdX (u.drop (i - t.length)) caps kfin (digitFree_drop hud _)
    rw [tryFrom_extend _ (t.length + maxRun p u) t.length (by omega) hdead]
    apply tryFrom_congr
    intro j _ h2
    rw [List.drop_append_of_le_length h2]
    exact hX (t.drop j) caps

theorem stabOn_seq_grpplus (u : List Char) (hud : DigitFree u) (g : Nat)
    (p : Char → Bool) (X : RE) (hX : StabOn u X) (hdX : DeadOn X) :
    StabOn u (.seq (.grp g (.plus p)) X) := by
  intro t caps
  rw [reMatch_seq, reMatch_seq, reMatch_grp, reMatch_grp, reMatch_plus, reMatch_plus]
  have hcong : ∀ j, 1 ≤ j → j ≤ t.length →
      reMatch X ((t ++ u).drop j)
        ((g, (t ++ u).take ((t ++ u).length - ((t ++ u).drop j).length)) :: caps) kfin =
      reMatch X (t.drop j) ((g, t.take (t.length - (t.drop j).length)) :: caps) kfin := by
    intro j _ hjt
    have e1 : (t ++ u).length - ((t ++ u).drop j).length = j := by
      rw [List.length_drop, List.length_append]
      omega
    have e2 : t.length - (t.drop j).length = j := by
      rw [List.length_drop]
      omega
    rw [e1, e2, List.take_append_of_le_length hjt, List.drop_append_of_le_length hjt]
    exact hX (t.drop j) ((g, t.take j) :: caps)
  by_cases hM : maxRun p t < t.length
  · rw [maxRun_append_lt p t u hM]
    apply tryFrom_congr
    intro j h1 h2
    exact hcong j h1 (le_of_lt (lt_of_le_of_lt h2 hM))
  · have hMeq : maxRun p t = t.length := le_antisymm (maxRun_le_length p t) (not_lt.mp hM)
    have hall : ∀ c ∈ t, p c = true := all_of_maxRun_eq_length p t hMeq
    rw [maxRun_append_all p t u hall, hMeq]
    have hdead : ∀ i, t.length < i → i ≤ t.length + maxRun p u →
        reMatch X ((t ++ u).drop i)
          ((g, (t ++ u).take ((t ++ u).length - ((t ++ u).drop i).length)) :: caps) kfin =
          none := by
      intro i hi1 _
      have hdu : (t ++ u).drop i = u.drop (i - t.length) := by
        conv_lhs => rw [show i = t.length + (i - t.length) by omega]
        exact List.drop_append _
      rw [hdu]
      exact hdX (u.drop (i - t.length)) _ kfin (digitFree_drop hud _)
    rw [tryFrom_extend _ (t.length + maxRun p u) t.length (by omega) hdead]
    apply tryFrom_congr
    intro j h1 h2
    exact hcong j h1 h2

theorem stabOn_opt (u : List Char) (A : RE) (hA : StabOn u A) : StabOn u (.opt A) := by
  intro t caps
  rw [reMatch_opt, reMatch_opt, hA t caps]
  rfl

theorem stabOn_seq_optchr_digits (u : List Char) (hud : DigitFree u)
    (p : Char → Bool) (g : Nat) :
    StabOn u (.seq (.opt (.chr p)) (digitsRE g)) := by
  have hX : StabOn u (digitsRE g) := stabOn_digits u hud g
  intro t caps
  rw [reMatch_seq, reMatch_seq, reMatch_opt, reMatch_opt]
  have hsecond : reMatch (digitsRE g) (t ++ u) caps kfin =
      reMatch (digitsRE g) t caps kfin := hX t caps
  have hfirst : reMatch (.chr p) (t ++ u) caps (fun s2 c2 => reMatch (digitsRE g) s2 c2 kfin) =
      reMatch (.chr p) t caps (fun s2 c2 => reMatch (digitsRE g) s2 c2 kfin) := by
    cases t with
    | nil =>
      rw [List.nil_append]
      cases u with
      | nil => rfl
      | cons c urest =>
        rw [reMatch_chr_cons]
        by_cases hpc : p c
        · rw [if_pos hpc]
          exact deadOn_digits g urest caps kfin (digitFree_tail hud)
        · rw [if_neg hpc]
          rfl
    | cons c trest =>
      rw [List.cons_append, reMatch_chr_cons, reMatch_chr_cons]
      by_cases hpc : p c
      · rw [if_pos hpc, if_pos hpc]
        exact hX trest caps
      · rw [if_neg hpc, if_neg hpc]
  rw [hfirst]
  cases reMatch (.chr p) t caps (fun s2 c2 => reMatch (digitsRE g) s2 c2 kfin) with
  | some r => rfl
  | none =>
    show reMatch (digitsRE g) (t ++ u) caps kfin = reMatch (digitsRE g) t caps kfin
    exact hsecond

theorem stabOn_singlePat (u : List Char) (hud : DigitFree u) : StabOn u singlePat := by
  have s5 : StabOn u (.opt (.seq (.opt (.chr isDashColon)) (digitsRE 4))) :=
    stabOn_opt u _ (stabOn_seq_optchr_digits u hud isDashColon 4)
  have s4 := stabOn_seq_digits u hud 3 _ s5
  have s3 := stabOn_seq_chr u hud (fun c => c = ':') _ s4 (deadOn_seq_digits 3 _)
  have s2 := stabOn_seq_digits u hud 2 _ s3
  have s1 := stabOn_seq_plus u hud isPySpace _ s2 (deadOn_seq_digits 2 _)
  have s0 := stabOn_seq_grpplus u hud 1 isWordSpace _ s1
    (deadOn_seq_plus isPySpace _ (deadOn_seq_digits 2 _))
  exact s0

theorem stabOn_crossPat (u : List Char) (hud : DigitFree u) : StabOn u crossPat := by
  have c6 : StabOn u (digitsRE 5) := stabOn_digits u hud 5
  have c5 := stabOn_seq_chr u hud (fun c => c = ':') _ c6 (deadOn_digits 5)
  have c4 := stabOn_seq_digits u hud 4 _ c5
  have c3 := stabOn_seq_chr u hud isDashColon _ c4 (deadOn_seq_digits 4 _)
  have c2 := stabOn_seq_digits u hud 3 _ c3
  have c1 := stabOn_seq_chr u hud (fun c => c = ':') _ c2 (deadOn_seq_digits 3 _)
  have c0 := stabOn_seq_digits u hud 2 _ c1
  have cs := stabOn_seq_plus u hud isPySpace _ c0 (deadOn_seq_digits 2 _)
  have ct := stabOn_seq_grpplus u hud 1 isWordSpace _ cs
    (deadOn_seq_plus isPySpace _ (deadOn_seq_digits 2 _))
  exact ct

theorem matchStage_append (s u : List Char) (hud : DigitFree u) :
    matchStage (s ++ u) = matchStage s := by
  unfold matchStage runRE
  rw [stabOn_crossPat u hud s [], stabOn_singlePat u hud s []]

/-! ### C10 — prefix matching of the reference parser -/

/-- C10, counterexample: the claim fails because the pre-match Kings
rewrite can span the boundary between the citation and the trailing
text.  `"Genesis 3:1-2[4]"` parses to `(Genesis,3,1,3,2)`, the appended
`" Kings"` contains no digit and no colon, yet the concatenation parses
to `(Genesis,3,1,3,4)`: `re.sub` rewrites `"2[4] Kings"` to `"4 Kings"`,
replacing the end verse. -/
theorem thm_C10_counterexample :
    parse_reading_reference "Genesis 3:1-2[4]".data =
      some ⟨"Genesis".data, 3, 1, 3, 2⟩ ∧
    (∀ c ∈ " Kings".data, c.isDigit = false ∧ c ≠ ':') ∧
    parse_reading_reference ("Genesis 3:1-2[4]".data ++ " Kings".data) =
      some ⟨"Genesis".data, 3, 1, 3, 4⟩ ∧
    (⟨"Genesis".data, 3, 1, 3, 2⟩ : Ref) ≠ ⟨"Genesis".data, 3, 1, 3, 4⟩ := by
  refine ⟨by decide, by decide, by decide, by decide⟩

/-- C10, amended: the grammar-matching stage of the parser (the
`re.match` calls on the normalised, stripped citation) matches only a
leading prefix: appending any text containing no digit and no colon to
its input never changes its result.  The full parser violates the claim
only because the preceding normalisation rewrites (the Kings rewrite)
can span the boundary between the citation and the trailing text. -/
theorem thm_C10_amended (s u : List Char) (r : Ref)
    (hu : ∀ c ∈ u, c.isDigit = false ∧ c ≠ ':')
    (h : matchStage s = some r) :
    matchStage (s ++ u) = some r := by
  rw [matchStage_append s u (fun c hc => (hu c hc).1)]
  exact h

/-- C10 witness: the amended theorem applied to `"Genesis 3:1-8"` with
the trailing text `" some trailing words"`. -/
theorem thm_C10_amended_witness :
    matchStage ("Genesis 3:1-8".data ++ " some trailing words".data) =
      some ⟨"Genesis".data, 3, 1, 3, 8⟩ :=
  thm_C10_amended "Genesis 3:1-8".data " some trailing words".data
    ⟨"Genesis".data, 3, 1, 3, 8⟩ (by decide) (by decide)

/-! ### Decimal rendering: `natChars` -/

theorem digitsVal_append_singleton (xs : List Char) (c : Char) :
    digitsVal (xs ++ [c]) = 10 * digitsVal xs + (c.toNat - 48) := by
  unfold digitsVal
  rw [List.foldl_append]
  rfl

theorem digit_char_facts (d : Nat) (hd : d < 10) :
    (Char.ofNat (48 + d)).toNat = 48 + d ∧ (Char.ofNat (48 + d)).isDigit = true ∧
      isWordSpace (Char.ofNat (48 + d)) = true := by
  interval_cases d <;> exact ⟨rfl, rfl, rfl⟩

theorem natCharsAux_spec :
    ∀ fuel n, n < fuel →
      digitsVal (natCharsAux fuel n) = n ∧ natCharsAux fuel n ≠ [] ∧
        ∀ c ∈ natCharsAux fuel n, c.isDigit = true := by
  intro fuel
  induction fuel with
  | zero => intro n hn; omega
  | succ f ih =>
    intro n hn
    by_cases h10 : n < 10
    · refine ⟨?_, ?_, ?_⟩
      · show digitsVal (if n < 10 then [Char.ofNat (48 + n)] else _) = n
        rw [if_pos h10]
        show 10 * 0 + ((Char.ofNat (48 + n)).toNat - 48) = n
        rw [(digit_char_facts n h10).1]
        omega
      · show (if n < 10 then [Char.ofNat (48 + n)] else _) ≠ []
        rw [if_pos h10]
        simp
      · intro c hc
        rw [show natCharsAux (f + 1) n = [Char.ofNat (48 + n)] from if_pos h10] at hc
        rw [List.mem_singleton.mp hc]
        exact (digit_char_facts n h10).2.1
    · have hdiv : n / 10 < n := Nat.div_lt_self (by omega) (by omega)
      have hf : n / 10 < f := by omega
      obtain ⟨ih1, ih2, ih3⟩ := ih (n / 10) hf
      have hmod : n % 10 < 10 := Nat.mod_lt _ (by omega)
      have heq : natCharsAux (f + 1) n =
          natCharsAux f (n / 10) ++ [Char.ofNat (48 + n % 10)] := if_neg h10
      refine ⟨?_, ?_, ?_⟩
      · rw [heq, digitsVal_append_singleton, ih1, (digit_char_facts _ hmod).1]
        omega
      · rw [heq]
        simp
      · intro c hc
        rw [heq] at hc
        rcases List.mem_append.mp hc with h1 | h2
        · exact ih3 c h1
        · rw [List.mem_singleton.mp h2]
          exact (digit_char_facts _ hmod).2.1

theorem digitsVal_natChars (n : Nat) : digitsVal (natChars n) = n :=
  (natCharsAux_spec (n + 1) n (by omega)).1

theorem natChars_ne_nil (n : Nat) : natChars n ≠ [] :=
  (natCharsAux_spec (n + 1) n (by omega)).2.1

theorem natChars_all_digit (n : Nat) : ∀ c ∈ natChars n, c.isDigit = true :=
  (natCharsAux_spec (n + 1) n (by omega)).2.2

/-! ### Character-class facts -/

theorem isWordSpace_of_isDigit {c : Char} (h : c.isDigit = true) :
    isWordSpace c = true := by
  unfold isWordSpace
  rw [h]
  rfl

theorem not_pyspace_of_isDigit {c : Char} (h : c.isDigit = true) :
    isPySpace c = false := by
  cases hsp : isPySpace c with
  | false => rfl
  | true =>
    exfalso
    unfold isPySpace at hsp
    simp only [Bool.or_eq_true, decide_eq_true_eq] at hsp
    rcases hsp with ((((rfl | rfl) | rfl) | rfl) | rfl) | rfl <;> exact absurd h (by decide)

theorem ne_colon_of_isDigit {c : Char} (h : c.isDigit = true) : c ≠ ':' := by
  intro e
  rw [e] at h
  exact absurd h (by decide)

theorem ne_bracket_of_isDigit {c : Char} (h : c.isDigit = true) : c ≠ '[' := by
  intro e
  rw [e] at h
  exact absurd h (by decide)

theorem ne_dot_of_isDigit {c : Char} (h : c.isDigit = true) : c ≠ '.' := by
  intro e
  rw [e] at h
  exact absurd h (by decide)

theorem isWordSpace_facts {c : Char} (h : isWordSpace c = true) :
    c ≠ ':' ∧ c ≠ '.' ∧ c ≠ '[' ∧ c ≠ '-' := by
  refine ⟨?_, ?_, ?_, ?_⟩ <;> intro e <;> rw [e] at h <;> exact absurd h (by decide)

theorem not_alpha_of_isDigit {c : Char} (h : c.isDigit = true) :
    c.isAlpha = false := by
  cases ha : c.isAlpha with
  | false => rfl
  | true =>
    exfalso
    have h1 : 48 ≤ c.toNat ∧ c.toNat ≤ 57 := by
      unfold Char.isDigit at h
      simp only [Bool.and_eq_true, decide_eq_true_eq] at h
      exact h
    have h2 : (65 ≤ c.toNat ∧ c.toNat ≤ 90) ∨ (97 ≤ c.toNat ∧ c.toNat ≤ 122) := by
      unfold Char.isAlpha Char.isUpper Char.isLower at ha
      simp only [Bool.or_eq_true, Bool.and_eq_true, decide_eq_true_eq] at ha
      exact ha
    omega

/-! ### Soundness of the matcher against `MSpec` -/

theorem reMatch_sound {σ : Type} :
    ∀ (P : RE) (s : List Char) (caps : Caps) (k : List Char → Caps → Option σ) (res : σ),
      reMatch P s caps k = some res →
      ∃ x y caps2, s = x ++ y ∧ MSpec P x ∧ k y caps2 = some res := by
  intro P
  induction P with
  | chr p =>
    intro s caps k res h
    cases s with
    | nil => exact Option.noConfusion h
    | cons c rest =>
      rw [reMatch_chr_cons] at h
      by_cases hpc : p c
      · rw [if_pos hpc] at h
        exact ⟨[c], rest, caps, rfl, MSpec.chr hpc, h⟩
      · rw [if_neg hpc] at h
        exact Option.noConfusion h
  | plus p =>
    intro s caps k res h
    rw [reMatch_plus] at h
    obtain ⟨i, hi1, hi2, hi3⟩ := tryFrom_some _ _ _ h
    refine ⟨s.take i, s.drop i, caps, (List.take_append_drop i s).symm, ?_, hi3⟩
    refine MSpec.plus ?_ (all_take_of_le_maxRun p s i hi2)
    have hl : i ≤ s.length := le_trans hi2 (maxRun_le_length p s)
    intro he
    have hlen : (s.take i).length = i := by rw [List.length_take]; omega
    rw [he] at hlen
    simp at hlen
    omega
  | star p =>
    intro s caps k res h
    rw [reMatch_star] at h
    obtain ⟨i, hi2, hi3⟩ := tryFrom0_some _ _ _ h
    exact ⟨s.take i, s.drop i, caps, (List.take_append_drop i s).symm,
      MSpec.star (all_take_of_le_maxRun p s i hi2), hi3⟩
  | seq a b iha ihb =>
    intro s caps k res h
    rw [reMatch_seq] at h
    obtain ⟨x1, y1, caps2, hs, hm1, hk1⟩ := iha s caps _ res h
    obtain ⟨x2, y2, caps3, hy, hm2, hk2⟩ := ihb y1 caps2 k res hk1
    exact ⟨x1 ++ x2, y2, caps3, by rw [hs, hy, List.append_assoc], MSpec.seq hm1 hm2, hk2⟩
  | opt a iha =>
    intro s caps k res h
    rw [reMatch_opt] at h
    cases ha : reMatch a s caps k with
    | some r =>
      rw [ha] at h
      have hr : r = res := Option.some_injective _ h
      obtain ⟨x, y, caps2, hs, hm, hk⟩ := iha s caps k res (by rw [ha, hr])
      exact ⟨x, y, caps2, hs, MSpec.optSome hm, hk⟩
    | none =>
      rw [ha] at h
      exact ⟨[], s, caps, rfl, MSpec.optNone, h⟩
  | grp i a iha =>
    intro s caps k res h
    rw [reMatch_grp] at h
    obtain ⟨x, y, caps2, hs, hm, hk⟩ := iha s caps _ res h
    exact ⟨x, y, (i, s.take (s.length - y.length)) :: caps2, hs, MSpec.grp hm, hk⟩
  | lit cs =>
    intro s caps k res h
    rw [reMatch_lit] at h
    by_cases hp : cs.isPrefixOf s
    · rw [if_pos hp] at h
      obtain ⟨t, ht⟩ := List.isPrefixOf_iff_prefix.mp hp
      refine ⟨cs, s.drop cs.length, caps, ?_, MSpec.lit, h⟩
      rw [← ht, List.drop_left]
    · rw [if_neg hp] at h
      exact Option.noConfusion h

theorem MSpec_chr_inv {p : Char → Bool} {z : List Char} (h : MSpec (.chr p) z) :
    ∃ c, z = [c] ∧ p c = true := by
  cases h with
  | chr hc => exact ⟨_, rfl, hc⟩

theorem MSpec_seq_inv {a b : RE} {z : List Char} (h : MSpec (.seq a b) z) :
    ∃ x y, z = x ++ y ∧ MSpec a x ∧ MSpec b y := by
  cases h with
  | seq h1 h2 => exact ⟨_, _, rfl, h1, h2⟩

theorem MSpec_grp_inv {i : Nat} {a : RE} {z : List Char} (h : MSpec (.grp i a) z) :
    MSpec a z := by
  cases h with
  | grp h1 => exact h1

theorem MSpec_plus_inv {p : Char → Bool} {z : List Char} (h : MSpec (.plus p) z) :
    z ≠ [] ∧ ∀ c ∈ z, p c = true := by
  cases h with
  | plus h1 h2 => exact ⟨h1, h2⟩

/-- Every string the cross-chapter pattern can consume contains at least
two colons (one for each mandatory `[:]` literal). -/
theorem MSpec_cross_colons {z : List Char} (h : MSpec crossPat z) :
    2 ≤ z.count ':' := by
  obtain ⟨x1, y1, rfl, h1, h2⟩ := MSpec_seq_inv h
  obtain ⟨x2, y2, rfl, h3, h4⟩ := MSpec_seq_inv h2
  obtain ⟨x3, y3, rfl, h5, h6⟩ := MSpec_seq_inv h4
  obtain ⟨x4, y4, rfl, h7, h8⟩ := MSpec_seq_inv h6
  obtain ⟨x5, y5, rfl, h9, h10⟩ := MSpec_seq_inv h8
  obtain ⟨x6, y6, rfl, h11, h12⟩ := MSpec_seq_inv h10
  obtain ⟨x7, y7, rfl, h13, h14⟩ := MSpec_seq_inv h12
  obtain ⟨x8, y8, rfl, h15, h16⟩ := MSpec_seq_inv h14
  obtain ⟨c4, rfl, hc4⟩ := MSpec_chr_inv h7
  obtain ⟨c8, rfl, hc8⟩ := MSpec_chr_inv h15
  have e4 : c4 = ':' := by simpa using hc4
  have e8 : c8 = ':' := by simpa using hc8
  subst e4
  subst e8
  simp only [List.count_append]
  have : List.count ':' [':'] = 1 := rfl
  omega

/-- On a string with at most one colon, the cross-chapter pattern fails. -/
theorem runRE_cross_none {s : List Char} (h : s.count ':' ≤ 1) :
    runRE crossPat s = none := by
  cases hr : runRE crossPat s with
  | none => rfl
  | some caps =>
    exfalso
    unfold runRE at hr
    obtain ⟨x, y, caps2, hs, hm, _⟩ := reMatch_sound crossPat s [] kfin caps hr
    have h2 := MSpec_cross_colons hm
    rw [hs, List.count_append] at h
    omega

theorem count_colon_zero_of {z : List Char} (h : ∀ c ∈ z, c ≠ ':') :
    z.count ':' = 0 := by
  induction z with
  | nil => rfl
  | cons c rest ih =>
    rw [List.count_cons]
    rw [ih (fun x hx => h x (List.mem_cons_of_mem c hx))]
    have : (c == ':') = false := by
      simp only [beq_eq_false_iff_ne, ne_eq]
      exact h c (List.mem_cons_self c rest)
    rw [this]
    simp

/-! ### The normalisation rewrites leave a well-formed header unchanged -/

theorem replacePyAux_id (pat rep : List Char) :
    ∀ fuel s, hasSubstr pat s = false → replacePyAux pat rep fuel s = s := by
  intro fuel
  induction fuel with
  | zero => intro s _; cases s <;> rfl
  | succ f ih =>
    intro s h
    cases s with
    | nil => rfl
    | cons c rest =>
      have h' : (pat.isPrefixOf (c :: rest) || hasSubstr pat rest) = false := h
      rw [Bool.or_eq_false_iff] at h'
      show (if pat.isPrefixOf (c :: rest) && !pat.isEmpty then _ else
        c :: replacePyAux pat rep f rest) = c :: rest
      rw [h'.1]
      show c :: replacePyAux pat rep f rest = c :: rest
      rw [ih rest h'.2]

theorem replacePy_id (pat rep s : List Char) (h : hasSubstr pat s = false) :
    replacePy pat rep s = s :=
  replacePyAux_id pat rep s.length s h

theorem isPrefixOf_cons_false {p : Char} {ps : List Char} {c : Char} {rest : List Char}
    (h : p ≠ c) : (p :: ps).isPrefixOf (c :: rest) = false := by
  show (p == c && ps.isPrefixOf rest) = false
  have : (p == c) = false := by
    simp only [beq_eq_false_iff_ne, ne_eq]
    exact h
  rw [this]
  rfl

theorem hasSubstr_nonalpha (p : Char) (ps : List Char) (hp : p.isAlpha = true) :
    ∀ R, (∀ c ∈ R, c.isAlpha = false) → hasSubstr (p :: ps) R = false := by
  intro R
  induction R with
  | nil => intro _; rfl
  | cons c rest ih =>
    intro hR
    show ((p :: ps).isPrefixOf (c :: rest) || hasSubstr (p :: ps) rest) = false
    rw [Bool.or_eq_false_iff]
    constructor
    · refine isPrefixOf_cons_false ?_
      intro e
      rw [e] at hp
      rw [hR c (List.mem_cons_self c rest)] at hp
      exact Bool.noConfusion hp
    · exact ih (fun x hx => hR x (List.mem_cons_of_mem c hx))

theorem prefix_append_alpha {pat R X : List Char}
    (hpa : ∀ c ∈ pat, c.isAlpha = true) (hR : ∀ c ∈ R, c.isAlpha = false)
    (hpre : pat <+: (X ++ R)) : pat <+: X := by
  have h1 : pat = (X ++ R).take pat.length := List.prefix_iff_eq_take.mp hpre
  by_cases hlen : pat.length ≤ X.length
  · rw [List.take_append_of_le_length hlen] at h1
    rw [h1]
    exact List.take_prefix _ _
  · exfalso
    rw [List.take_append_eq_append_take] at h1
    have hXt : X.take pat.length = X := List.take_of_length_le (by omega)
    rw [hXt] at h1
    cases hRt : R.take (pat.length - X.length) with
    | nil =>
      rw [hRt, List.append_nil] at h1
      have := congrArg List.length h1
      omega
    | cons c rest =>
      rw [hRt] at h1
      have hcR : c ∈ R :=
        List.take_subset _ R (by rw [hRt]; exact List.mem_cons_self c rest)
      have hcp : c ∈ pat := by
        rw [h1]
        exact List.mem_append_right X (List.mem_cons_self c rest)
      have halpha := hpa c hcp
      rw [hR c hcR] at halpha
      exact Bool.noConfusion halpha

theorem hasSubstr_append_alpha (pat R : List Char) (hne : pat ≠ [])
    (hpa : ∀ c ∈ pat, c.isAlpha = true) (hR : ∀ c ∈ R, c.isAlpha = false) :
    ∀ X, hasSubstr pat X = false → hasSubstr pat (X ++ R) = false := by
  intro X
  induction X with
  | nil =>
    intro _
    rw [List.nil_append]
    cases pat with
    | nil => exact absurd rfl hne
    | cons p ps =>
      exact hasSubstr_nonalpha p ps (hpa p (List.mem_cons_self p ps)) R hR
  | cons b X' ih =>
    intro hB
    have hB' : (pat.isPrefixOf (b :: X') || hasSubstr pat X') = false := hB
    rw [Bool.or_eq_false_iff] at hB'
    show (pat.isPrefixOf (b :: X' ++ R) || hasSubstr pat (X' ++ R)) = false
    rw [Bool.or_eq_false_iff]
    refine ⟨?_, ih hB'.2⟩
    cases hval : pat.isPrefixOf (b :: X' ++ R) with
    | false => rfl
    | true =>
      exfalso
      have hpre : pat <+: ((b :: X') ++ R) := by
        rw [List.cons_append]
        exact List.isPrefixOf_iff_prefix.mp hval
      have hpx : pat <+: (b :: X') := prefix_append_alpha hpa hR hpre
      have : pat.isPrefixOf (b :: X') = true := List.isPrefixOf_iff_prefix.mpr hpx
      rw [this] at hB'
      exact Bool.noConfusion hB'.1

theorem reMatch_kings_none {σ : Type} (w : List Char) (hw : ∀ c ∈ w, c ≠ '[')
    (caps : Caps) (k : List Char → Caps → Option σ) :
    reMatch kingsPat w caps k = none := by
  show reMatch (.seq (digitsRE 1) _) w caps k = none
  rw [reMatch_seq]
  show reMatch (.grp 1 (.plus Char.isDigit)) w caps _ = none
  rw [reMatch_grp, reMatch_plus]
  apply tryFrom_none
  intro i _ _
  show reMatch (.seq (.chr _) _) (w.drop i) _ _ = none
  rw [reMatch_seq]
  cases hd : w.drop i with
  | nil => exact reMatch_chr_nil _ _ _
  | cons c r =>
    rw [reMatch_chr_cons]
    have hc : c ∈ w := List.mem_of_mem_drop (by rw [hd]; exact List.mem_cons_self c r)
    rw [if_neg]
    simp only [decide_eq_true_eq]
    exact hw c hc

theorem subKingsAux_id : ∀ fuel s, (∀ c ∈ s, c ≠ '[') → subKingsAux fuel s = s := by
  intro fuel
  induction fuel with
  | zero => intro s _; cases s <;> rfl
  | succ f ih =>
    intro s h
    cases s with
    | nil => rfl
    | cons c rest =>
      show (match reMatch kingsPat (c :: rest) [] (fun r caps => some (r, caps)) with
        | some (r, caps) =>
          ((getGrp caps 2).getD []) ++ (' ' :: ['K', 'i', 'n', 'g', 's']) ++ subKingsAux f r
        | none => c :: subKingsAux f rest) = c :: rest
      rw [reMatch_kings_none (c :: rest) h]
      show c :: subKingsAux f rest = c :: rest
      rw [ih rest (fun x hx => h x (List.mem_cons_of_mem c hx))]

theorem subKings_id (s : List Char) (h : ∀ c ∈ s, c ≠ '[') : subKings s = s :=
  subKingsAux_id s.length s h

theorem dotToColon_id (s : List Char) (h : ∀ c ∈ s, c ≠ '.') : dotToColon s = s := by
  unfold dotToColon
  have hcong : ∀ c ∈ s, (if c = '.' then ':' else c) = id c :=
    fun c hc => if_neg (h c hc)
  rw [List.map_eq_map_iff.mpr hcong, List.map_id]

theorem stripPy_eq_self_of (s : List Char) (c1 : Char) (r1 : List Char)
    (X : List Char) (c2 : Char)
    (h1 : s = c1 :: r1) (h2 : isPySpace c1 = false)
    (h3 : s = X ++ [c2]) (h4 : isPySpace c2 = false) : stripPy s = s := by
  unfold stripPy
  have d1 : s.dropWhile isPySpace = s := by
    rw [h1, List.dropWhile_cons, h2]
    rfl
  rw [d1]
  have hrev : s.reverse = c2 :: X.reverse := by
    rw [h3, List.reverse_append, List.reverse_singleton]
    rfl
  rw [hrev]
  have d2 : (c2 :: X.reverse).dropWhile isPySpace = c2 :: X.reverse := by
    rw [List.dropWhile_cons, h4]
    rfl
  rw [d2, ← hrev, List.reverse_reverse]

/-! ### Symbolic evaluation of the single-chapter pattern on a header -/

theorem tryFrom_top {α : Type} (f : Nat → Option α) (r : α) (n : Nat)
    (h1 : 1 ≤ n) (h2 : f n = some r) : tryFrom f n = some r := by
  cases n with
  | zero => omega
  | succ m =>
    show (f (m + 1)).orElse (fun _ => tryFrom f m) = some r
    rw [h2]
    rfl

theorem maxRun_cons_true (p : Char → Bool) (c : Char) (l : List Char)
    (h : p c = true) : maxRun p (c :: l) = maxRun p l + 1 := by
  show (if p c = true then maxRun p l + 1 else 0) = maxRun p l + 1
  rw [h]
  rfl

theorem maxRun_cons_false (p : Char → Bool) (c : Char) (l : List Char)
    (h : p c = false) : maxRun p (c :: l) = 0 := by
  show (if p c = true then maxRun p l + 1 else 0) = 0
  rw [h]
  rfl

theorem reMatch_digits_run {σ : Type} (g : Nat) (D rest : List Char) (hne : D ≠ [])
    (hd : ∀ c ∈ D, c.isDigit = true) (hrest : maxRun Char.isDigit rest = 0)
    (caps : Caps) (k : List Char → Caps → Option σ) (r : σ)
    (hk : k rest ((g, D) :: caps) = some r) :
    reMatch (digitsRE g) (D ++ rest) caps k = some r := by
  show reMatch (.grp g (.plus Char.isDigit)) _ caps k = _
  rw [reMatch_grp, reMatch_plus, maxRun_append_all Char.isDigit D rest hd, hrest,
    Nat.add_zero]
  apply tryFrom_top _ r
  · have := List.length_pos.mpr hne
    omega
  · show k ((D ++ rest).drop D.length)
      ((g, (D ++ rest).take ((D ++ rest).length - ((D ++ rest).drop D.length).length)) ::
        caps) = some r
    rw [List.drop_left]
    have e1 : (D ++ rest).length - rest.length = D.length := by
      rw [List.length_append]
      omega
    rw [e1, List.take_left]
    exact hk

theorem reMatch_colon_chr {σ : Type} (rest : List Char) (caps : Caps)
    (k : List Char → Caps → Option σ) (r : σ) (hk : k rest caps = some r) :
    reMatch (.chr (fun c => c = ':')) (':' :: rest) caps k = some r := by
  rw [reMatch_chr_cons, if_pos (by decide)]
  exact hk

theorem optTail_eval_nil (caps : Caps) : reMatch singleTail4 [] caps kfin = some caps := by
  show reMatch (.opt (.seq (.opt (.chr isDashColon)) (digitsRE 4))) [] caps kfin = some caps
  rw [reMatch_opt]
  have hinner : reMatch (.seq (.opt (.chr isDashColon)) (digitsRE 4)) [] caps kfin = none := by
    rw [reMatch_seq, reMatch_opt, reMatch_chr_nil]
    show reMatch (digitsRE 4) [] caps kfin = none
    exact deadOn_digits 4 [] caps kfin (fun c hc => absurd hc (List.not_mem_nil c))
  rw [hinner]
  rfl

theorem optTail_eval_range (D3 : List Char) (hne : D3 ≠ [])
    (hd : ∀ c ∈ D3, c.isDigit = true) (caps : Caps) :
    reMatch singleTail4 ('-' :: D3) caps kfin = some ((4, D3) :: caps) := by
  show reMatch (.opt (.seq (.opt (.chr isDashColon)) (digitsRE 4))) _ caps kfin = _
  rw [reMatch_opt]
  have hdig : reMatch (digitsRE 4) (D3 ++ []) caps kfin = some ((4, D3) :: caps) := by
    apply reMatch_digits_run 4 D3 [] hne hd rfl caps kfin
    rfl
  rw [List.append_nil] at hdig
  have hinner : reMatch (.seq (.opt (.chr isDashColon)) (digitsRE 4)) ('-' :: D3) caps kfin =
      some ((4, D3) :: caps) := by
    rw [reMatch_seq, reMatch_opt, reMatch_chr_cons, if_pos (by decide)]
    show ((reMatch (digitsRE 4) D3 caps kfin).orElse _) = _
    rw [hdig]
    rfl
  rw [hinner]
  rfl

theorem singleTail3_eval (D2 tail : List Char) (caps OUT : Caps)
    (hD2 : D2 ≠ []) (hd2 : ∀ c ∈ D2, c.isDigit = true)
    (htail : maxRun Char.isDigit tail = 0)
    (hopt : reMatch singleTail4 tail ((3, D2) :: caps) kfin = some OUT) :
    reMatch singleTail3 (D2 ++ tail) caps kfin = some OUT := by
  show reMatch (.seq (digitsRE 3) singleTail4) _ caps kfin = _
  rw [reMatch_seq]
  exact reMatch_digits_run 3 D2 tail hD2 hd2 htail caps _ OUT hopt

theorem singleTail2_eval (D2 tail : List Char) (caps OUT : Caps)
    (hD2 : D2 ≠ []) (hd2 : ∀ c ∈ D2, c.isDigit = true)
    (htail : maxRun Char.isDigit tail = 0)
    (hopt : reMatch singleTail4 tail ((3, D2) :: caps) kfin = some OUT) :
    reMatch singleTail2 (':' :: (D2 ++ tail)) caps kfin = some OUT := by
  show reMatch (.seq (.chr (fun c => c = ':')) singleTail3) _ caps kfin = _
  rw [reMatch_seq]
  exact reMatch_colon_chr (D2 ++ tail) caps _ OUT
    (singleTail3_eval D2 tail caps OUT hD2 hd2 htail hopt)

theorem singleTail1_eval (D1 D2 tail : List Char) (caps OUT : Caps)
    (hD1 : D1 ≠ []) (hd1 : ∀ c ∈ D1, c.isDigit = true)
    (hD2 : D2 ≠ []) (hd2 : ∀ c ∈ D2, c.isDigit = true)
    (htail : maxRun Char.isDigit tail = 0)
    (hopt : reMatch singleTail4 tail ((3, D2) :: (2, D1) :: caps) kfin = some OUT) :
    reMatch singleTail1 (D1 ++ ':' :: (D2 ++ tail)) caps kfin = some OUT := by
  show reMatch (.seq (digitsRE 2) singleTail2) _ caps kfin = _
  rw [reMatch_seq]
  refine reMatch_digits_run 2 D1 (':' :: (D2 ++ tail)) hD1 hd1 ?_ caps _ OUT ?_
  · exact maxRun_cons_false Char.isDigit ':' _ (by decide)
  · exact singleTail2_eval D2 tail ((2, D1) :: caps) OUT hD2 hd2 htail hopt

theorem singleTail0_eval (D1 D2 tail : List Char) (caps OUT : Caps)
    (hD1 : D1 ≠ []) (hd1 : ∀ c ∈ D1, c.isDigit = true)
    (hD2 : D2 ≠ []) (hd2 : ∀ c ∈ D2, c.isDigit = true)
    (htail : maxRun Char.isDigit tail = 0)
    (hopt : reMatch singleTail4 tail ((3, D2) :: (2, D1) :: caps) kfin = some OUT) :
    reMatch singleTail0 (' ' :: (D1 ++ ':' :: (D2 ++ tail))) caps kfin = some OUT := by
  show reMatch (.seq (.plus isPySpace) singleTail1) _ caps kfin = _
  rw [reMatch_seq, reMatch_plus]
  have hsp : maxRun isPySpace (' ' :: (D1 ++ ':' :: (D2 ++ tail))) = 1 := by
    rw [maxRun_cons_true isPySpace ' ' _ (by decide)]
    cases D1 with
    | nil => exact absurd rfl hD1
    | cons d D1' =>
      rw [List.cons_append, maxRun_cons_false isPySpace d _
        (not_pyspace_of_isDigit (hd1 d (List.mem_cons_self d D1')))]
  rw [hsp]
  apply tryFrom_top _ OUT 1 (le_refl 1)
  show reMatch singleTail1 (D1 ++ ':' :: (D2 ++ tail)) caps kfin = some OUT
  exact singleTail1_eval D1 D2 tail caps OUT hD1 hd1 hD2 hd2 htail hopt

theorem singleTail0_none_head (c : Char) (w : List Char) (caps : Caps)
    (hc : isPySpace c = false) : reMatch singleTail0 (c :: w) caps kfin = none := by
  show reMatch (.seq (.plus isPySpace) singleTail1) _ caps kfin = none
  rw [reMatch_seq, reMatch_plus, maxRun_cons_false isPySpace c w hc]
  rfl

theorem runRE_single_header (B D1 : List Char) (rest2 : List Char) (OUT : Caps)
    (hB : B ≠ []) (hBws : ∀ c ∈ B, isWordSpace c = true)
    (hD1 : D1 ≠ []) (hd1 : ∀ c ∈ D1, c.isDigit = true)
    (hcolon : ∃ r2', rest2 = ':' :: r2')
    (heval : reMatch singleTail0 (' ' :: (D1 ++ rest2)) [(1, B)] kfin = some OUT) :
    runRE singlePat (B ++ ' ' :: (D1 ++ rest2)) = some OUT := by
  obtain ⟨r2', rfl⟩ := hcolon
  unfold runRE
  show reMatch (.seq (.grp 1 (.plus isWordSpace)) singleTail0)
    (B ++ ' ' :: (D1 ++ ':' :: r2')) [] kfin = some OUT
  rw [reMatch_seq, reMatch_grp, reMatch_plus]
  have hM : maxRun isWordSpace (B ++ ' ' :: (D1 ++ ':' :: r2')) =
      B.length + (1 + D1.length) := by
    rw [maxRun_append_all _ B _ hBws, maxRun_cons_true isWordSpace ' ' _ (by decide),
      maxRun_append_all _ D1 _ (fun c hc => isWordSpace_of_isDigit (hd1 c hc)),
      maxRun_cons_false isWordSpace ':' _ (by decide)]
    omega
  rw [hM]
  have hBpos : 0 < B.length := List.length_pos.mpr hB
  refine tryFrom_first _ OUT (B.length + (1 + D1.length)) B.length (by omega) (by omega)
    ?_ ?_
  · show reMatch singleTail0 ((B ++ ' ' :: (D1 ++ ':' :: r2')).drop B.length)
      ((1, (B ++ ' ' :: (D1 ++ ':' :: r2')).take
        ((B ++ ' ' :: (D1 ++ ':' :: r2')).length -
          ((B ++ ' ' :: (D1 ++ ':' :: r2')).drop B.length).length)) :: []) kfin = some OUT
    rw [List.drop_left]
    have e2 : (B ++ ' ' :: (D1 ++ ':' :: r2')).length - (' ' :: (D1 ++ ':' :: r2')).length
        = B.length := by
      rw [List.length_append]
      omega
    rw [e2, List.take_left]
    exact heval
  · intro i hi1 hi2
    show reMatch singleTail0 ((B ++ ' ' :: (D1 ++ ':' :: r2')).drop i)
      ((1, (B ++ ' ' :: (D1 ++ ':' :: r2')).take
        ((B ++ ' ' :: (D1 ++ ':' :: r2')).length -
          ((B ++ ' ' :: (D1 ++ ':' :: r2')).drop i).length)) :: []) kfin = none
    have hstep : (B ++ ' ' :: (D1 ++ ':' :: r2')).drop i =
        (D1 ++ ':' :: r2').drop (i - B.length - 1) := by
      conv_lhs => rw [show i = B.length + (i - B.length) by omega]
      rw [List.drop_append]
      conv_lhs => rw [show i - B.length = (i - B.length - 1) + 1 by omega]
      rfl
    rw [hstep]
    by_cases hmlt : i - B.length - 1 < D1.length
    · have hlt : i - B.length - 1 < (D1 ++ ':' :: r2').length := by
        rw [List.length_append, List.length_cons]
        omega
      rw [List.drop_eq_getElem_cons hlt]
      apply singleTail0_none_head
      rw [List.getElem_append_left hmlt]
      exact not_pyspace_of_isDigit (hd1 _ (List.getElem_mem hmlt))
    · have hme : i - B.length - 1 = D1.length := by omega
      rw [hme, List.drop_left]
      exact singleTail0_none_head ':' r2' _ (by decide)

theorem extractSingle_point (B D1 D2 : List Char) :
    extractSingle [(3, D2), (2, D1), (1, B)] =
      some ⟨stripPy B, digitsVal D1, digitsVal D2, digitsVal D1, digitsVal D2⟩ := rfl

theorem extractSingle_range (B D1 D2 D3 : List Char) :
    extractSingle [(4, D3), (3, D2), (2, D1), (1, B)] =
      some ⟨stripPy B, digitsVal D1, digitsVal D2, digitsVal D1, digitsVal D3⟩ := rfl

theorem head_not_space_of_strip_self (s : List Char) (c : Char) (r : List Char)
    (hs : stripPy s = s) (he : s = c :: r) : isPySpace c = false := by
  cases hc : isPySpace c with
  | false => rfl
  | true =>
    exfalso
    have l1 : (s.dropWhile isPySpace).length < s.length := by
      rw [he, List.dropWhile_cons, hc, if_pos rfl]
      have : (List.dropWhile isPySpace r).length ≤ r.length :=
        List.Sublist.length_le (List.dropWhile_sublist isPySpace)
      simp only [List.length_cons]
      omega
    have hlen : (stripPy s).length < s.length := by
      unfold stripPy
      calc ((s.dropWhile isPySpace).reverse.dropWhile isPySpace).reverse.length
          = ((s.dropWhile isPySpace).reverse.dropWhile isPySpace).length :=
            List.length_reverse _
        _ ≤ (s.dropWhile isPySpace).reverse.length :=
            List.Sublist.length_le (List.dropWhile_sublist isPySpace)
        _ = (s.dropWhile isPySpace).length := List.length_reverse _
        _ < s.length := l1
    rw [hs] at hlen
    omega

theorem header_chars (B D1 D2 T : List Char)
    (hBws : ∀ ch ∈ B, isWordSpace ch = true)
    (h1 : ∀ ch ∈ D1, ch.isDigit = true) (h2 : ∀ ch ∈ D2, ch.isDigit = true)
    (hT : ∀ ch ∈ T, ch.isDigit = true ∨ ch = '-') :
    ∀ ch ∈ (B ++ ' ' :: (D1 ++ ':' :: (D2 ++ T))),
      isWordSpace ch = true ∨ ch = ':' ∨ ch = '-' := by
  intro ch hch
  rcases List.mem_append.mp hch with h | h
  · exact Or.inl (hBws ch h)
  rcases List.mem_cons.mp h with rfl | h
  · exact Or.inl (by decide)
  rcases List.mem_append.mp h with h | h
  · exact Or.inl (isWordSpace_of_isDigit (h1 ch h))
  rcases List.mem_cons.mp h with rfl | h
  · exact Or.inr (Or.inl rfl)
  rcases List.mem_append.mp h with h | h
  · exact Or.inl (isWordSpace_of_isDigit (h2 ch h))
  rcases hT ch h with hd | rfl
  · exact Or.inl (isWordSpace_of_isDigit hd)
  · exact Or.inr (Or.inr rfl)

theorem rest_not_alpha (D1 D2 T : List Char)
    (h1 : ∀ ch ∈ D1, ch.isDigit = true) (h2 : ∀ ch ∈ D2, ch.isDigit = true)
    (hT : ∀ ch ∈ T, ch.isDigit = true ∨ ch = '-') :
    ∀ ch ∈ (' ' :: (D1 ++ ':' :: (D2 ++ T))), ch.isAlpha = false := by
  intro ch hch
  rcases List.mem_cons.mp hch with rfl | h
  · decide
  rcases List.mem_append.mp h with h | h
  · exact not_alpha_of_isDigit (h1 ch h)
  rcases List.mem_cons.mp h with rfl | h
  · decide
  rcases List.mem_append.mp h with h | h
  · exact not_alpha_of_isDigit (h2 ch h)
  rcases hT ch h with hd | rfl
  · exact not_alpha_of_isDigit hd
  · decide

theorem count_colon_header (B D1 D2 T : List Char)
    (hBws : ∀ ch ∈ B, isWordSpace ch = true)
    (h1 : ∀ ch ∈ D1, ch.isDigit = true) (h2 : ∀ ch ∈ D2, ch.isDigit = true)
    (hT : ∀ ch ∈ T, ch.isDigit = true ∨ ch = '-') :
    (B ++ ' ' :: (D1 ++ ':' :: (D2 ++ T))).count ':' = 1 := by
  have hB0 : B.count ':' = 0 :=
    count_colon_zero_of (fun ch hch => (isWordSpace_facts (hBws ch hch)).1)
  have hD10 : D1.count ':' = 0 :=
    count_colon_zero_of (fun ch hch => ne_colon_of_isDigit (h1 ch hch))
  have hD20 : D2.count ':' = 0 :=
    count_colon_zero_of (fun ch hch => ne_colon_of_isDigit (h2 ch hch))
  have hT0 : T.count ':' = 0 := by
    refine count_colon_zero_of (fun ch hch => ?_)
    rcases hT ch hch with hd | rfl
    · exact ne_colon_of_isDigit hd
    · decide
  simp [List.count_append, List.count_cons, hB0, hD10, hD20, hT0]

/-! ### C8 — re-parsing the reconstructed header -/

/-- C8, counterexample: for the registered book "Wisdom of Solomon" the
reconstructed header does not re-parse to the same reference: the
parser's `"Wisdom" → "Wisdom of Solomon"` alias rewrite doubles the book
name, so the round trip is not the identity. -/
theorem thm_C8_counterexample :
    makeHeader "Wisdom of Solomon".data 1 1 1 1 = "Wisdom of Solomon 1:1".data ∧
    parse_reading_reference "Wisdom of Solomon 1:1".data =
      some ⟨"Wisdom of Solomon of Solomon".data, 1, 1, 1, 1⟩ ∧
    "Wisdom of Solomon of Solomon".data ≠ "Wisdom of Solomon".data := by
  refine ⟨by decide, by decide, by decide⟩

/-- C8, amended: re-parsing the header reconstructed by the resolution
engine is the identity on single-chapter references whose book name is
non-empty, consists of word and space characters only (which excludes
"Esther (Greek)"), is already stripped, and does not contain the
substring "Wisdom" (which excludes "Wisdom of Solomon") — this covers
every other registered book name. -/
theorem thm_C8_amended (B : List Char) (c v1 v2 : Nat)
    (hB : B ≠ []) (hBws : ∀ ch ∈ B, isWordSpace ch = true)
    (hstrip : stripPy B = B) (hW : hasSubstr "Wisdom".data B = false)
    (hc : 0 < c) (hv1 : 0 < v1) (hv12 : v1 ≤ v2) :
    parse_reading_reference (makeHeader B c v1 c v2) = some ⟨B, c, v1, c, v2⟩ := by
  obtain ⟨b0, B', hBcons⟩ : ∃ b0 B', B = b0 :: B' := by
    cases B with
    | nil => exact absurd rfl hB
    | cons x xs => exact ⟨x, xs, rfl⟩
  have hhead : isPySpace b0 = false := head_not_space_of_strip_self B b0 B' hstrip hBcons
  by_cases hveq : v2 = v1
  · subst hveq
    have hmk : makeHeader B c v2 c v2 =
        B ++ ' ' :: (natChars c ++ ':' :: natChars v2) := by
      unfold makeHeader
      rw [if_neg (lt_irrefl c), if_neg (show ¬(v2 ≠ v2) from fun hh => hh rfl)]
      simp [List.append_assoc]
    rw [hmk]
    have hT : ∀ ch ∈ ([] : List Char), ch.isDigit = true ∨ ch = '-' :=
      fun ch hch => absurd hch (List.not_mem_nil ch)
    have hchars := header_chars B (natChars c) (natChars v2) []
      hBws (natChars_all_digit c) (natChars_all_digit v2) hT
    rw [List.append_nil] at hchars
    have hcount := count_colon_header B (natChars c) (natChars v2) []
      hBws (natChars_all_digit c) (natChars_all_digit v2) hT
    rw [List.append_nil] at hcount
    have halpha := rest_not_alpha (natChars c) (natChars v2) []
      (natChars_all_digit c) (natChars_all_digit v2) hT
    rw [List.append_nil] at halpha
    have hwid : wisdomReplace (B ++ ' ' :: (natChars c ++ ':' :: natChars v2)) =
        B ++ ' ' :: (natChars c ++ ':' :: natChars v2) := by
      unfold wisdomReplace
      exact replacePy_id _ _ _
        (hasSubstr_append_alpha "Wisdom".data (' ' :: (natChars c ++ ':' :: natChars v2))
          (by decide) (by decide) halpha B hW)
    have hkid : subKings (B ++ ' ' :: (natChars c ++ ':' :: natChars v2)) =
        B ++ ' ' :: (natChars c ++ ':' :: natChars v2) := by
      refine subKings_id _ (fun ch hch => ?_)
      rcases hchars ch hch with hw | rfl | rfl
      · exact (isWordSpace_facts hw).2.2.1
      · decide
      · decide
    have hdid : dotToColon (B ++ ' ' :: (natChars c ++ ':' :: natChars v2)) =
        B ++ ' ' :: (natChars c ++ ':' :: natChars v2) := by
      refine dotToColon_id _ (fun ch hch => ?_)
      rcases hchars ch hch with hw | rfl | rfl
      · exact (isWordSpace_facts hw).2.1
      · decide
      · decide
    obtain ⟨L, d, hLd⟩ : ∃ L d, natChars v2 = L ++ [d] := by
      rcases List.eq_nil_or_concat (natChars v2) with hnil | ⟨L, d, hLd⟩
      · exact absurd hnil (natChars_ne_nil v2)
      · exact ⟨L, d, by rw [hLd, List.concat_eq_append]⟩
    have hdd : d.isDigit = true :=
      natChars_all_digit v2 d (by rw [hLd]; exact List.mem_append_right L (by simp))
    have hsid : stripPy (B ++ ' ' :: (natChars c ++ ':' :: natChars v2)) =
        B ++ ' ' :: (natChars c ++ ':' :: natChars v2) := by
      refine stripPy_eq_self_of _ b0 (B' ++ ' ' :: (natChars c ++ ':' :: natChars v2))
        (B ++ ' ' :: (natChars c ++ ':' :: L)) d ?_ hhead ?_
        (not_pyspace_of_isDigit hdd)
      · rw [hBcons]
        rfl
      · rw [hLd]
        simp [List.append_assoc]
    have hcross := runRE_cross_none (le_of_eq hcount)
    have hrun : runRE singlePat (B ++ ' ' :: (natChars c ++ ':' :: natChars v2)) =
        some [(3, natChars v2), (2, natChars c), (1, B)] := by
      have heval := singleTail0_eval (natChars c) (natChars v2) [] [(1, B)]
        [(3, natChars v2), (2, natChars c), (1, B)]
        (natChars_ne_nil c) (natChars_all_digit c)
        (natChars_ne_nil v2) (natChars_all_digit v2) rfl
        (optTail_eval_nil ((3, natChars v2) :: (2, natChars c) :: [(1, B)]))
      rw [List.append_nil] at heval
      exact runRE_single_header B (natChars c) (':' :: natChars v2)
        [(3, natChars v2), (2, natChars c), (1, B)] hB hBws
        (natChars_ne_nil c) (natChars_all_digit c) ⟨natChars v2, rfl⟩ heval
    unfold parse_reading_reference
    rw [hwid, hkid, hdid, hsid]
    unfold matchStage
    rw [hcross, hrun]
    show extractSingle [(3, natChars v2), (2, natChars c), (1, B)] =
      some ⟨B, c, v2, c, v2⟩
    rw [extractSingle_point, hstrip, digitsVal_natChars c, digitsVal_natChars v2]
  · have hmk : makeHeader B c v1 c v2 =
        B ++ ' ' :: (natChars c ++ ':' :: (natChars v1 ++ '-' :: natChars v2)) := by
      unfold makeHeader
      rw [if_neg (lt_irrefl c), if_pos hveq]
      simp [List.append_assoc]
    rw [hmk]
    have hT : ∀ ch ∈ ('-' :: natChars v2), ch.isDigit = true ∨ ch = '-' := by
      intro ch hch
      rcases List.mem_cons.mp hch with rfl | h
      · exact Or.inr rfl
      · exact Or.inl (natChars_all_digit v2 ch h)
    have hchars := header_chars B (natChars c) (natChars v1) ('-' :: natChars v2)
      hBws (natChars_all_digit c) (natChars_all_digit v1) hT
    have hcount := count_colon_header B (natChars c) (natChars v1) ('-' :: natChars v2)
      hBws (natChars_all_digit c) (natChars_all_digit v1) hT
    have halpha := rest_not_alpha (natChars c) (natChars v1) ('-' :: natChars v2)
      (natChars_all_digit c) (natChars_all_digit v1) hT
    have hwid : wisdomReplace
        (B ++ ' ' :: (natChars c ++ ':' :: (natChars v1 ++ '-' :: natChars v2))) =
        B ++ ' ' :: (natChars c ++ ':' :: (natChars v1 ++ '-' :: natChars v2)) := by
      unfold wisdomReplace
      exact replacePy_id _ _ _
        (hasSubstr_append_alpha "Wisdom".data
          (' ' :: (natChars c ++ ':' :: (natChars v1 ++ '-' :: natChars v2)))
          (by decide) (by decide) halpha B hW)
    have hkid : subKings
        (B ++ ' ' :: (natChars c ++ ':' :: (natChars v1 ++ '-' :: natChars v2))) =
        B ++ ' ' :: (natChars c ++ ':' :: (natChars v1 ++ '-' :: natChars v2)) := by
      refine subKings_id _ (fun ch hch => ?_)
      rcases hchars ch hch with hw | rfl | rfl
      · exact (isWordSpace_facts hw).2.2.1
      · decide
      · decide
    have hdid : dotToColon
        (B ++ ' ' :: (natChars c ++ ':' :: (natChars v1 ++ '-' :: natChars v2))) =
        B ++ ' ' :: (natChars c ++ ':' :: (natChars v1 ++ '-' :: natChars v2)) := by
      refine dotToColon_id _ (fun ch hch => ?_)
      rcases hchars ch hch with hw | rfl | rfl
      · exact (isWordSpace_facts hw).2.1
      · decide
      · decide
    obtain ⟨L, d, hLd⟩ : ∃ L d, natChars v2 = L ++ [d] := by
      rcases List.eq_nil_or_concat (natChars v2) with hnil | ⟨L, d, hLd⟩
      · exact absurd hnil (natChars_ne_nil v2)
      · exact ⟨L, d, by rw [hLd, List.concat_eq_append]⟩
    have hdd : d.isDigit = true :=
      natChars_all_digit v2 d (by rw [hLd]; exact List.mem_append_right L (by simp))
    have hsid : stripPy
        (B ++ ' ' :: (natChars c ++ ':' :: (natChars v1 ++ '-' :: natChars v2))) =
        B ++ ' ' :: (natChars c ++ ':' :: (natChars v1 ++ '-' :: natChars v2)) := by
      refine stripPy_eq_self_of _ b0
        (B' ++ ' ' :: (natChars c ++ ':' :: (natChars v1 ++ '-' :: natChars v2)))
        (B ++ ' ' :: (natChars c ++ ':' :: (natChars v1 ++ '-' :: L))) d ?_ hhead ?_
        (not_pyspace_of_isDigit hdd)
      · rw [hBcons]
        rfl
      · rw [hLd]
        simp [List.append_assoc]
    have hcross := runRE_cross_none (le_of_eq hcount)
    have hrun : runRE singlePat
        (B ++ ' ' :: (natChars c ++ ':' :: (natChars v1 ++ '-' :: natChars v2))) =
        some [(4, natChars v2), (3, natChars v1), (2, natChars c), (1, B)] := by
      have heval := singleTail0_eval (natChars c) (natChars v1) ('-' :: natChars v2)
        [(1, B)] [(4, natChars v2), (3, natChars v1), (2, natChars c), (1, B)]
        (natChars_ne_nil c) (natChars_all_digit c)
        (natChars_ne_nil v1) (natChars_all_digit v1)
        (maxRun_cons_false Char.isDigit '-' _ (by decide))
        (optTail_eval_range (natChars v2) (natChars_ne_nil v2) (natChars_all_digit v2)
          ((3, natChars v1) :: (2, natChars c) :: [(1, B)]))
      exact runRE_single_header B (natChars c)
        (':' :: (natChars v1 ++ '-' :: natChars v2))
        [(4, natChars v2), (3, natChars v1), (2, natChars c), (1, B)] hB hBws
        (natChars_ne_nil c) (natChars_all_digit c)
        ⟨natChars v1 ++ '-' :: natChars v2, rfl⟩ heval
    unfold parse_reading_reference
    rw [hwid, hkid, hdid, hsid]
    unfold matchStage
    rw [hcross, hrun]
    show extractSingle [(4, natChars v2), (3, natChars v1), (2, natChars c), (1, B)] =
      some ⟨B, c, v1, c, v2⟩
    rw [extractSingle_range, hstrip, digitsVal_natChars c, digitsVal_natChars v1,
      digitsVal_natChars v2]

/-- C8 witness: the amended theorem at the registered book "1 Kings" and
the range reference 1 Kings 2:6-14. -/
theorem thm_C8_amended_witness :
    parse_reading_reference (makeHeader "1 Kings".data 2 6 2 14) =
      some ⟨"1 Kings".data, 2, 6, 2, 14⟩ :=
  thm_C8_amended "1 Kings".data 2 6 14 (by decide) (by decide) (by decide) (by decide)
    (by decide) (by decide) (by decide)


end Orthofetch
